import Mathlib

/-!
Verification of the record normalization, expansion and merge engine of the
`srs` scraper harness (files `srs/norm.py`, `srs/harness.py`, `srs/claim.py`,
`srs/rating.py`, `srs/db.py`).

The Python code is shallowly embedded:

* Python values appearing in records are modelled by `Srs.PyVal`
  (strings, ints, `None`, lists, dicts with string keys — the only shapes the
  harness manipulates).  Dicts are association lists in insertion order;
  CPython 2 dicts are unordered, and no observable behaviour of the embedded
  code depends on the order, so insertion order is a harmless canonical choice.
* Exceptions are modelled by `Except Srs.PyErr`; the mutable
  `table_to_key_to_row` accumulator is threaded as state, and — crucially for
  the error-handling claims — an exception *keeps* the state mutated so far
  (`ExceptT PyErr (StateT Acc Option)`), exactly as a raised Python exception
  leaves already-performed dict mutations in place.  The `Option` layer is
  recursion fuel for `_add`'s recursive expansion.
* A second, store-based embedding (addresses + heap) appears at the end of the
  file for the frame/aliasing claim about the caller's record object.
-/

namespace Srs

/-- A Python value as manipulated by the harness: text, integer, `None`,
list, or string-keyed dict (association list in insertion order). -/
inductive PyVal where
  | str (s : String)
  | int (n : Int)
  | pynone
  | list (xs : List PyVal)
  | dict (entries : List (String × PyVal))

/-- Python `==` on the hashable scalar values that can appear inside a key
tuple (strings, ints, `None`): key tuples are hashed before any lookup, so a
list- or dict-valued component has already raised `TypeError` by the time two
key components are compared, and a flat comparison is exact.  Values of
different types compare unequal. -/
def pyKeyEq : PyVal → PyVal → Bool
  | .str a, .str b => a == b
  | .int a, .int b => a == b
  | .pynone, .pynone => true
  | _, _ => false

/-- Python `==` on two key tuples, componentwise. -/
def keyTupleEq : List PyVal → List PyVal → Bool
  | [], [] => true
  | x :: xs, y :: ys => pyKeyEq x y && keyTupleEq xs ys
  | _, _ => false

/-- A Python dict with string keys, as an insertion-ordered association list. -/
abbrev Dict := List (String × PyVal)

/-- `d.get(k)`: first binding of `k`, if any. -/
def dictGet (d : Dict) (k : String) : Option PyVal :=
  match d with
  | [] => none
  | (k', v) :: rest => if k' = k then some v else dictGet rest k

/-- `k in d`. -/
def dictContains (d : Dict) (k : String) : Bool :=
  (dictGet d k).isSome

/-- `d[k] = v`: replace an existing binding in place, else append. -/
def dictSet (d : Dict) (k : String) (v : PyVal) : Dict :=
  match d with
  | [] => [(k, v)]
  | (k', v') :: rest => if k' = k then (k, v) :: rest else (k', v') :: dictSet rest k v

/-- `d.pop(k)` (discarding the popped value): remove the binding of `k`. -/
def dictRemove (d : Dict) (k : String) : Dict :=
  match d with
  | [] => []
  | (k', v') :: rest => if k' = k then rest else (k', v') :: dictRemove rest k

/-- Python truthiness of a value (`bool(v)`). -/
def pyTruthy : PyVal → Bool
  | .str s => !s.isEmpty
  | .int n => !(n = 0)
  | .pynone => false
  | .list xs => !xs.isEmpty
  | .dict es => !es.isEmpty

/-- Truthiness of `d.get(k)` (a missing key is `None`, hence falsy). -/
def pyTruthyOpt : Option PyVal → Bool
  | some v => pyTruthy v
  | none => false

/-- `v is None`. -/
def isNoneVal : PyVal → Bool
  | .pynone => true
  | _ => false

/-- `v == ''` (Python equality against the empty string: true only for an
empty string, never for ints, lists, dicts or `None`). -/
def isBlankStr : PyVal → Bool
  | .str s => s.isEmpty
  | _ => false

/-! ## `srs/norm.py` -/

/-- `TM_SYMBOLS = u'®℠™'` — registered, service-mark and trademark glyphs,
in the source's order. -/
def tmSymbols : List Char := ['®', '℠', '™']

/-- The characters matched by `\s` under `re.U` in Python 2.7 (ASCII
whitespace, the C1 separators, NEL, and the Unicode space separators,
including U+180E, whitespace in the Unicode 5.2 tables Python 2.7 ships). -/
def isPySpace (c : Char) : Bool :=
  c = ' ' || c = '\t' || c = '\n' || c = '\r' || c = '\x0b' || c = '\x0c' ||
  c = '\x1c' || c = '\x1d' || c = '\x1e' || c = '\x1f' || c = '\u0085' ||
  c = '᠎' ||
  c = ' ' || c = ' ' ||
  (' ' ≤ c && c ≤ ' ') ||
  c = ' ' || c = ' ' || c = ' ' || c = ' ' || c = '　'

/-- `WHITESPACE_RE.sub(' ', s)`: replace every maximal whitespace run by a
single ASCII space. -/
def collapseWs : List Char → List Char
  | [] => []
  | c :: rest =>
    let tail := collapseWs rest
    if isPySpace c then
      match tail with
      | ' ' :: _ => tail
      | _ => ' ' :: tail
    else c :: tail

/-- `s.strip()`: drop leading and trailing whitespace. -/
def stripEnds (l : List Char) : List Char :=
  ((l.dropWhile isPySpace).reverse.dropWhile isPySpace).reverse

/-- `clean_string`: collapse whitespace runs to one space, strip the ends, and
replace the smart apostrophe U+2019 with `'`. -/
def clean_string (s : String) : String :=
  String.mk ((stripEnds (collapseWs s.toList)).map
    (fun c => if c = '’' then '\'' else c))

/-- `merge(src, dst)`: for each `(k, v)` of `src`, write `v` into `dst` when
`v is not None and (v != '' or not dst.get(k))`.  Returns the mutated `dst`. -/
def merge (src dst : Dict) : Dict :=
  src.foldl
    (fun d kv =>
      if !isNoneVal kv.2 && (!isBlankStr kv.2 || !pyTruthyOpt (dictGet d kv.1)) then
        dictSet d kv.1 kv.2
      else d)
    dst

/-! ## Generic list search helper -/

/-- Index of the first element satisfying `p` (Python's `find`/first-match). -/
def firstIdx (p : Char → Bool) : List Char → Option Nat
  | [] => none
  | c :: rest => if p c then some 0 else (firstIdx p rest).map (· + 1)

/-- The trademark-stripping loop of `_add` (harness.py lines 154-160): for each
glyph of `TM_SYMBOLS` in order, if it occurs in the current brand, truncate the
brand there and remember the glyph.  State is `(brand, tm)`. -/
def tmFold (syms : List Char) (st : List Char × Option Char) : List Char × Option Char :=
  syms.foldl
    (fun p c =>
      match firstIdx (fun x => x == c) p.1 with
      | some i => (p.1.take i, some c)
      | none => p)
    st

/-! ## `srs/rating.py` -/

/-- `DEFAULT_MIN_SCORE = 0`. -/
def DEFAULT_MIN_SCORE : Int := 0

/-- Python 2 `cmp` on two characters (code-point order). -/
def pyCmp (a b : Char) : Int :=
  if a < b then -1 else if b < a then 1 else 0

/-- Python errors raised by the embedded code, with the data the source
interpolates into its messages (field name, table name, offending record). -/
inductive PyErr where
  /-- `ValueError('empty {k} field in `{table}`: {record}')` (harness.py:129). -/
  | emptyIdentity (field table : String) (record : Dict)
  /-- `ValueError('{k} has no scheme: {record}')` (harness.py:208). -/
  | noScheme (field : String) (record : Dict)
  /-- `ValueError('empty {k} field for `{table}`: {record}')` (harness.py:217). -/
  | emptyKey (field table : String) (record : Dict)
  /-- `KeyError` from a missing dict key. -/
  | keyError (k : String)
  /-- `TypeError` (iterating a non-iterable, duplicate kwarg, unhashable key). -/
  | typeError
  /-- `AttributeError` (e.g. `.copy()`/`.find()` on a value lacking it). -/
  | attributeError
  /-- `IndexError` from `grade[0]` on an empty string. -/
  | indexError

/-- `grade_to_judgment(grade) = cmp('C', grade[0].upper())`; `grade[0]` raises
`IndexError` on an empty string.  Python 2 `str.upper` is ASCII uppercasing,
as is `Char.toUpper`. -/
def grade_to_judgment (grade : String) : Except PyErr Int :=
  match grade.toList with
  | [] => .error .indexError
  | c :: _ => .ok (pyCmp 'C' c.toUpper)

/-! ## `srs/db.py` -/

/-- `TABLE_TO_KEY_FIELDS` from db.py: the primary-key fields of each table,
in order. -/
def tableToKeyFields (t : String) : Option (List String) :=
  if t = "brand" then some ["company", "brand"]
  else if t = "campaign" then some ["campaign_id"]
  else if t = "category" then some ["company", "brand", "category"]
  else if t = "claim" then some ["campaign_id", "company", "brand", "scope", "claim"]
  else if t = "company" then some ["company"]
  else if t = "rating" then some ["campaign_id", "company", "brand", "scope"]
  else if t = "scraper" then some ["scraper_id"]
  else if t = "scraper_brand_map" then some ["scraper_id", "scraper_company", "scraper_brand"]
  else if t = "scraper_category_map" then some ["scraper_id", "scraper_category"]
  else if t = "scraper_company_map" then some ["scraper_id", "scraper_company"]
  else if t = "subcategory" then some ["category", "subcategory"]
  else if t = "url" then some ["url"]
  else none

/-- `SCRAPER_ID_KEYS = {'campaign_id', 'scraper_id'}` (harness.py:30). -/
def scraperIdKeys : List String := ["campaign_id", "scraper_id"]

/-! ## The URL scheme test (`urlparse(...).scheme` truthiness)

Python 2.7 `urlparse.urlsplit`: a scheme is recognised when the text before
the first `:` is `http`, or consists of letters/digits/`+`/`-`/`.` starting
at index `> 0` and the text after the `:` is empty or contains a non-digit
(otherwise the `:` is taken to introduce a port, not a scheme). -/

/-- Characters allowed in a URI scheme by `urlparse` (`scheme_chars`). -/
def isSchemeChar (c : Char) : Bool :=
  c.isAlpha || c.isDigit || c = '+' || c = '-' || c = '.'

/-- Whether `urlparse(s).scheme` is non-empty (truthy). -/
def hasScheme (s : String) : Bool :=
  let l := s.toList
  match firstIdx (fun c => c = ':') l with
  | none => false
  | some i =>
    if i = 0 then false
    else
      let before := l.take i
      let rest := l.drop (i + 1)
      if before = "http".toList then true
      else if before.all isSchemeChar then
        rest.isEmpty || rest.any (fun c => !c.isDigit)
      else false

/-- The last `_`-separated segment of a field name, accumulated left to
right (`k.split('_')[-1]`). -/
def lastSegAux : List Char → List Char → List Char
  | [], cur => cur.reverse
  | c :: rest, cur => if c = '_' then lastSegAux rest [] else lastSegAux rest (c :: cur)

/-- `k.split('_')[-1] == 'url'`: is the last underscore-separated segment of a
field name the token `url`? -/
def lastSegIsUrl (k : String) : Bool :=
  lastSegAux k.toList [] = ['u', 'r', 'l']

/-- Does the second list start with the first? -/
def leadMatch : List Char → List Char → Bool
  | [], _ => true
  | _ :: _, [] => false
  | a :: as, b :: bs => a == b && leadMatch as bs

/-- `s.endswith(suffix)`. -/
def strEndsWith (s suffix : String) : Bool :=
  leadMatch suffix.toList.reverse s.toList.reverse

/-! ## `srs/claim.py` — the claim classifier

The three patterns are of the form `.*\b(alt|alt|...)\b.*` with `re.I`, used
through `re.match`.  Each alternative is a word or a `\s+`-separated word
sequence (optional groups are expanded into explicit alternatives below).
Such a pattern matches iff some alternative occurs, case-insensitively and
delimited by word boundaries, starting at a position whose preceding text
contains no newline (`.` does not cross newlines, while `\s+` inside an
alternative may).  Since every alternative starts with a word character and
`\s+` never matches a word character, greedy whitespace munching is exact. -/

/-- `\w` for a Python 2 pattern without `re.U`: ASCII letters, digits, `_`. -/
def isWordChar (c : Char) : Bool :=
  c.isAlpha || c.isDigit || c = '_'

/-- Consume one word, case-insensitively (ASCII folding, matching Python 2
case-insensitive matching on the ASCII pattern text). -/
def eatWordCI : List Char → List Char → Option (List Char)
  | [], rest => some rest
  | _ :: _, [] => none
  | c :: cs, x :: xs => if x.toLower = c then eatWordCI cs xs else none

/-- `\s` for a Python 2 pattern without `re.U` (the claim regexes are compiled
with `re.I` only): ASCII whitespace. -/
def isAsciiWs (c : Char) : Bool :=
  c = ' ' || c = '\t' || c = '\n' || c = '\r' || c = '\x0b' || c = '\x0c'

/-- Consume `\s+` (one or more ASCII whitespace characters, maximal munch). -/
def eatSpaces1 (l : List Char) : Option (List Char) :=
  match l with
  | [] => none
  | c :: rest => if isAsciiWs c then some (rest.dropWhile isAsciiWs) else none

/-- Consume a `\s+`-separated word sequence. -/
def eatPhrase : List (List Char) → List Char → Option (List Char)
  | [], rest => some rest
  | [w], rest => eatWordCI w rest
  | w :: ws, rest =>
    match eatWordCI w rest with
    | none => none
    | some r1 =>
      match eatSpaces1 r1 with
      | none => none
      | some r2 => eatPhrase ws r2

/-- Does some alternative match here, with a word boundary on each side?
`prevOk` records whether the preceding character (if any) is a non-word
character. -/
def phraseHere (ps : List (List (List Char))) (prevOk : Bool) (s : List Char) : Bool :=
  prevOk && ps.any fun ws =>
    match eatPhrase ws s with
    | none => false
    | some [] => true
    | some (c :: _) => !isWordChar c

/-- Scan the text left to right, trying every start position up to (and
including the position of) the first newline — `re.match` with a leading
`.*` can only reach positions whose prefix is newline-free. -/
def scanText (ps : List (List (List Char))) : Option Char → List Char → Bool
  | prev, s =>
    phraseHere ps (match prev with | none => true | some c => !isWordChar c) s ||
      match s with
      | [] => false
      | c :: rest => !(c = '\n') && scanText ps (some c) rest

/-- `MIXED_CLAIM_RE`'s alternatives:
`but|however|though|(some(\s+public)?\s+information)|basic\s+steps`. -/
def mixedPhrases : List (List (List Char)) :=
  [["but"], ["however"], ["though"],
   ["some", "information"], ["some", "public", "information"],
   ["basic", "steps"]].map (fun ws => ws.map String.toList)

/-- `BAD_CLAIM_RE`'s alternatives: `not|unresponsive|
(no|minimal|limited|little)(\s+public)?\s+(information|evidence|visibility)|
minimal\s+effort`. -/
def badPhrases : List (List (List Char)) :=
  ([["not"], ["unresponsive"]] ++
   (["no", "minimal", "limited", "little"].flatMap fun q =>
     [[q], [q, "public"]].flatMap fun pre =>
       ["information", "evidence", "visibility"].map fun n => pre ++ [n]) ++
   [["minimal", "effort"]]).map (fun ws => ws.map String.toList)

/-- `GOOD_CLAIM_RE`'s alternative: `distinguished`. -/
def goodPhrases : List (List (List Char)) :=
  [["distinguished"]].map (fun ws => ws.map String.toList)

/-- `MIXED_CLAIM_RE.match(claim)` truthiness. -/
def mixedMatch (s : String) : Bool := scanText mixedPhrases none s.toList

/-- `BAD_CLAIM_RE.match(claim)` truthiness. -/
def badMatch (s : String) : Bool := scanText badPhrases none s.toList

/-- `GOOD_CLAIM_RE.match(claim)` truthiness. -/
def goodMatch (s : String) : Bool := scanText goodPhrases none s.toList

/-- `claim_to_judgment(claim, default=1)`: try MIXED, then BAD, then GOOD;
fall back to the caller's default.  Total — never raises. -/
def claim_to_judgment (claim : String) (default : Int := 1) : Int :=
  if mixedMatch claim then 0
  else if badMatch claim then -1
  else if goodMatch claim then 1
  else default

/-! ## `srs/harness.py` — `add_record` / `_add`

The accumulator `table_to_key_to_row` maps a table name to a map from
composite key (tuple of key-field values) to row.  It is mutated in place by
the Python code, so it is threaded as state, and a raised exception *keeps*
the mutations performed so far: the monad is
`ExceptT PyErr (StateT Acc Option)`, whose runs have type
`Acc → Option (Except PyErr α × Acc)`.  The `Option` layer is recursion fuel
(`none` = fuel exhausted, which never happens for the concrete runs below). -/

/-- The `table -> key -> row` accumulator. -/
abbrev Acc := List (String × List (List PyVal × Dict))

/-- The expansion monad: exceptions over accumulator state over fuel. -/
abbrev ExpM (α : Type) := ExceptT PyErr (StateT Acc Option) α

/-- Read the accumulator. -/
def getAcc : ExpM Acc := ExceptT.mk fun acc => some (.ok acc, acc)

/-- Replace the accumulator. -/
def setAcc (a : Acc) : ExpM Unit := ExceptT.mk fun _ => some (.ok (), a)

/-- Out of fuel. -/
def noFuel {α : Type} : ExpM α := ExceptT.mk fun _ => none

/-- Key lookup in a `key -> row` map, by Python value equality. -/
def keysGet (m : List (List PyVal × Dict)) (key : List PyVal) : Option Dict :=
  match m with
  | [] => none
  | (k, row) :: rest => if keyTupleEq k key then some row else keysGet rest key

/-- Replace the row of `key` in a `key -> row` map. -/
def keysSet (m : List (List PyVal × Dict)) (key : List PyVal) (row : Dict) :
    List (List PyVal × Dict) :=
  match m with
  | [] => [(key, row)]
  | (k, r) :: rest =>
    if keyTupleEq k key then (key, row) :: rest else (k, r) :: keysSet rest key row

/-- Lookup of a table's `key -> row` map in the accumulator. -/
def accGet (acc : Acc) (table : String) : Option (List (List PyVal × Dict)) :=
  match acc with
  | [] => none
  | (t, m) :: rest => if t = table then some m else accGet rest table

/-- Replace a table's `key -> row` map in the accumulator. -/
def accSet (acc : Acc) (table : String) (m : List (List PyVal × Dict)) : Acc :=
  match acc with
  | [] => [(table, m)]
  | (t, m') :: rest =>
    if t = table then (table, m) :: rest else (t, m') :: accSet rest table m

/-- Lines 127-130: `for key in 'company', 'brand', 'category':` raise
`ValueError` if the field is present and equal to `''`. -/
def guardIdentity (table : String) (record : Dict) : ExpM Unit := do
  match dictGet record "company" with
  | some (.str "") => throw (.emptyIdentity "company" table record)
  | _ => pure ()
  match dictGet record "brand" with
  | some (.str "") => throw (.emptyIdentity "brand" table record)
  | _ => pure ()
  match dictGet record "category" with
  | some (.str "") => throw (.emptyIdentity "category" table record)
  | _ => pure ()

/-- Lines 133-135: if `company` is a dict, expand it as a `company` record,
then `record['company'] = record['company']['company']` (read from the
original nested dict; `KeyError` if absent). -/
def nestedCompanyStep (recur : String → PyVal → ExpM Unit) (record : Dict) :
    ExpM Dict := do
  match dictGet record "company" with
  | some (.dict d) =>
    recur "company" (.dict d)
    match dictGet d "company" with
    | some v => pure (dictSet record "company" v)
    | none => throw (.keyError "company")
  | _ => pure record

/-- Lines 138-141: if `brand` is a dict, expand it as a `brand` record, set
`record['company'] = record['brand'].get('company', '')`, then
`record['brand'] = record['brand']['brand']` (`KeyError` if absent). -/
def nestedBrandStep (recur : String → PyVal → ExpM Unit) (record : Dict) :
    ExpM Dict := do
  match dictGet record "brand" with
  | some (.dict d) =>
    recur "brand" (.dict d)
    let record := dictSet record "company"
      (match dictGet d "company" with | some v => v | none => .str "")
    match dictGet d "brand" with
    | some v => pure (dictSet record "brand" v)
    | none => throw (.keyError "brand")
  | _ => pure record

/-- Iterating a Python value with `for`: lists yield their elements, strings
their characters (as one-character strings), dicts their keys; other values
raise `TypeError`. -/
def iterElems : PyVal → ExpM (List PyVal)
  | .list xs => pure xs
  | .str s => pure (s.toList.map fun c => .str (String.singleton c))
  | .dict es => pure (es.map fun e => .str e.1)
  | _ => throw .typeError

/-- Lines 146-152: pop a `brands` field and expand each element as a `brand`
record.  Each iteration rebinds `company = record['company']` (`KeyError` if
absent); a dict element with its own `company` key makes
`dict(company=company, **brand)` raise `TypeError`.  Returns the updated
record and the final value of the `company` variable. -/
def brandsStep (recur : String → PyVal → ExpM Unit) (record : Dict)
    (company0 : PyVal) : ExpM (Dict × PyVal) := do
  match dictGet record "brands" with
  | none => pure (record, company0)
  | some bv =>
    let record := dictRemove record "brands"
    let elems ← iterElems bv
    let company ← elems.foldlM
      (fun (_ : PyVal) b => do
        let c ← match dictGet record "company" with
          | some v => pure v
          | none => throw (.keyError "company")
        match b with
        | .dict bd =>
          if dictContains bd "company" then throw .typeError
          else recur "brand" (.dict (("company", c) :: bd))
        | _ => recur "brand" (.dict [("company", c), ("brand", b)])
        pure c)
      company0
    pure (record, company)

/-- Lines 155-160: if `record.get('brand')` is truthy, run the
trademark-stripping loop on it (`AttributeError` unless it is a string) and
record the last glyph found, if any, in `tm`. -/
def tmStep (record : Dict) : ExpM Dict := do
  match dictGet record "brand" with
  | some bv =>
    if pyTruthy bv then
      match bv with
      | .str s =>
        let p := tmFold tmSymbols (s.toList, none)
        let record := dictSet record "brand" (.str (String.mk p.1))
        match p.2 with
        | some c => pure (dictSet record "tm" (.str (String.singleton c)))
        | none => pure record
      | _ => throw .attributeError
    else pure record
  | none => pure record

/-- Lines 166-168: if `category` is present and the table neither is
`category` nor ends in `category`, move it into a one-element `categories`
list. -/
def categorySingularStep (table : String) (record : Dict) : Dict :=
  if dictContains record "category" &&
      !(table = "category" || strEndsWith table "category") then
    match dictGet record "category" with
    | some cv => dictSet (dictRemove record "category") "categories" (.list [cv])
    | none => record
  else record

/-- Lines 171-179: pop `categories` and expand each element as a `category`
record — keyed with the current `brand` when that is truthy, without a
`brand` field otherwise. -/
def categoriesStep (recur : String → PyVal → ExpM Unit) (record : Dict)
    (company brand : PyVal) : ExpM Dict := do
  match dictGet record "categories" with
  | none => pure record
  | some cv =>
    let record := dictRemove record "categories"
    let elems ← iterElems cv
    if pyTruthy brand then
      elems.forM fun c =>
        recur "category" (.dict [("company", company), ("brand", brand), ("category", c)])
    else
      elems.forM fun c =>
        recur "category" (.dict [("company", company), ("category", c)])
    pure record

/-- Lines 182-183: a `score` without `min_score` gets `min_score = 0`. -/
def scoreStep (record : Dict) : Dict :=
  if dictContains record "score" && !dictContains record "min_score" then
    dictSet record "min_score" (.int DEFAULT_MIN_SCORE)
  else record

/-- Lines 198-202: clean every string-valued field.  (The `k is None` branch
of the source loop is unreachable here: keys are strings.) -/
def cleanStep (record : Dict) : Dict :=
  record.map fun kv =>
    match kv.2 with
    | .str s => (kv.1, PyVal.str (clean_string s))
    | v => (kv.1, v)

/-- Lines 205-209: every field whose name's last `_`-segment is `url` and
whose value is truthy must parse with a scheme; `urlparse` of a truthy
non-string raises `AttributeError`. -/
def urlStep (record : Dict) : ExpM Unit :=
  record.forM fun kv =>
    if lastSegIsUrl kv.1 && pyTruthy kv.2 then
      match kv.2 with
      | .str s =>
        if !hasScheme s then throw (.noScheme kv.1 record) else pure ()
      | _ => throw .attributeError
    else pure ()

/-- `record.get(k) in (None, '')`: the key-field emptiness test of line 213
(missing key, explicit `None`, or empty string). -/
def emptyKeyVal (record : Dict) (k : String) : Bool :=
  match dictGet record k with
  | none => true
  | some .pynone => true
  | some (.str "") => true
  | _ => false

/-- `k == 'scope' or (k == 'brand' and table != 'brand')`: the key fields that
line 214 lets default to the empty string. -/
def exemptKey (table k : String) : Bool :=
  k = "scope" || (k = "brand" && table ≠ "brand")

/-- Lines 212-218: for each key field whose value is missing, `None` or `''`,
default it to `''` when it is `scope`, or `brand` on a non-`brand` table;
otherwise raise `ValueError` naming the field, the table and the record. -/
def fillKeys (table : String) (ks : List String) (record : Dict) :
    Except PyErr Dict :=
  match ks with
  | [] => .ok record
  | k :: rest =>
    if emptyKeyVal record k then
      if exemptKey table k then
        fillKeys table rest (dictSet record k (.str ""))
      else .error (.emptyKey k table record)
    else fillKeys table rest record

/-- A Python value usable inside a dict key tuple (hashable): strings, ints
and `None`; lists and dicts raise `TypeError` when the tuple is hashed. -/
def hashable : PyVal → Bool
  | .str _ => true
  | .int _ => true
  | .pynone => true
  | .list _ => false
  | .dict _ => false

/-- Lines 224-230: `table_to_key_to_row.setdefault(table, {})`, then merge
into an existing row for the key or insert the record as a new row. -/
def storeStep (table : String) (key : List PyVal) (record : Dict) : ExpM Unit := do
  if !key.all hashable then throw .typeError
  let acc ← getAcc
  let acc := if (accGet acc table).isSome then acc else acc ++ [(table, [])]
  let m := (accGet acc table).getD []
  match keysGet m key with
  | some existing => setAcc (accSet acc table (keysSet m key (merge record existing)))
  | none => setAcc (accSet acc table (m ++ [(key, record)]))

/-- The recursive `_add(table, record)` of `add_record` (harness.py:123-230),
with explicit fuel for the recursion.  `record.copy()` needs no model here:
records are immutable values (the store-based embedding at the end of the
file models the copying discipline itself).  A non-dict record raises
`AttributeError` (`.copy()` missing). -/
def addRec : Nat → String → PyVal → ExpM Unit
  | 0, _, _ => noFuel
  | n + 1, table, rv =>
    match rv with
    | .dict record0 => do
      let recur := addRec n
      let record := record0
      guardIdentity table record
      let record ← nestedCompanyStep recur record
      let record ← nestedBrandStep recur record
      let company := (dictGet record "company").getD (.str "")
      let rc ← brandsStep recur record company
      let record := rc.1
      let company := rc.2
      let record ← tmStep record
      let brand := (dictGet record "brand").getD (.str "")
      let record := categorySingularStep table record
      let record ← categoriesStep recur record company brand
      let record := scoreStep record
      if dictContains record "brand" && table ≠ "brand" then
        recur "brand" (.dict [("company", company), ("brand", brand)])
      else pure ()
      if dictContains record "company" && table ≠ "company" then
        recur "company" (.dict [("company", company)])
      else pure ()
      let ks ← match tableToKeyFields table with
        | some ks => pure (ks.filter fun k => !scraperIdKeys.contains k)
        | none => throw (.keyError table)
      let record := cleanStep record
      urlStep record
      let record ← match fillKeys table ks record with
        | .ok r => pure r
        | .error e => throw e
      let key := ks.map fun k => (dictGet record k).getD .pynone
      storeStep table key record
    | _ => throw .attributeError

/-- `add_record(table, record, table_to_key_to_row)`: run `_add` on the given
accumulator.  The result pairs the outcome (normal return or raised error)
with the accumulator as mutated by the call; `none` would mean the fuel ran
out. -/
def add_record (fuel : Nat) (table : String) (record : PyVal) (acc : Acc) :
    Option (Except PyErr Unit × Acc) :=
  (addRec fuel table record).run.run acc

/-! ## Store-based embedding of `add_record` (for the frame/aliasing claim)

Python records are mutable dict *objects*; `_add` shallow-copies its argument
(`record = record.copy()`) and mutates only the copy and the accumulator
structure.  To state that the caller's record object — nested dicts and
lists included — is never mutated, dicts are given addresses in a store.
`HVal` is a field value: scalar, list (lists are only ever read by the
harness, so they stay inline), or a reference to a dict object.  The three
`Obj` shapes are all Python dicts; they are separated by the type of their
keys: records (string keys), the `table -> key_to_row` accumulator (string
keys, dict values), and `key_to_row` maps (tuple keys, dict values). -/

/-- A field value in the store-based embedding. -/
inductive HVal where
  | str (s : String)
  | int (n : Int)
  | hnone
  | list (xs : List HVal)
  | ref (a : Nat)

/-- A record object's entries. -/
abbrev HDict := List (String × HVal)

/-- A heap object. -/
inductive Obj where
  | odict (entries : HDict)
  | otbl (entries : List (String × Nat))
  | okeys (entries : List (List HVal × Nat))

/-- The store: an address-to-object map plus the next fresh address. -/
structure Store where
  mem : List (Nat × Obj)
  next : Nat

/-- Errors of the store-based embedding (payloads are irrelevant here). -/
inductive HErr where
  | valueError
  | keyError
  | typeError
  | attributeError

/-- The result of a store-based computation: `none` is exhausted fuel,
otherwise the outcome is paired with the store as mutated so far. -/
abbrev HRes (α : Type) := Option (Except HErr α × Store)

/-- Address lookup. -/
def storeGet (σ : Store) (a : Nat) : Option Obj :=
  lookupMem σ.mem a
where
  lookupMem : List (Nat × Obj) → Nat → Option Obj
    | [], _ => none
    | (b, o) :: rest, a => if b = a then some o else lookupMem rest a

/-- Overwrite the object at an address (append if absent). -/
def storeSet (σ : Store) (a : Nat) (o : Obj) : Store :=
  ⟨setMem σ.mem a o, σ.next⟩
where
  setMem : List (Nat × Obj) → Nat → Obj → List (Nat × Obj)
    | [], a, o => [(a, o)]
    | (b, o') :: rest, a, o =>
      if b = a then (a, o) :: rest else (b, o') :: setMem rest a o

/-- Allocate a fresh object, returning its address. -/
def allocS (σ : Store) (o : Obj) : Nat × Store :=
  (σ.next, ⟨(σ.next, o) :: σ.mem, σ.next + 1⟩)

/-- `d.get(k)` on heap-dict entries. -/
def hdGet (d : HDict) (k : String) : Option HVal :=
  match d with
  | [] => none
  | (k', v) :: rest => if k' = k then some v else hdGet rest k

/-- `k in d`. -/
def hdContains (d : HDict) (k : String) : Bool :=
  (hdGet d k).isSome

/-- `d[k] = v`. -/
def hdSet (d : HDict) (k : String) (v : HVal) : HDict :=
  match d with
  | [] => [(k, v)]
  | (k', v') :: rest => if k' = k then (k, v) :: rest else (k', v') :: hdSet rest k v

/-- `d.pop(k)` (value discarded). -/
def hdRemove (d : HDict) (k : String) : HDict :=
  match d with
  | [] => []
  | (k', v') :: rest => if k' = k then rest else (k', v') :: hdRemove rest k

/-- Python truthiness of a field value; a reference is truthy iff the dict it
points to is non-empty. -/
def hTruthy (σ : Store) : HVal → Bool
  | .str s => !s.isEmpty
  | .int n => !(n = 0)
  | .hnone => false
  | .list xs => !xs.isEmpty
  | .ref a =>
    match storeGet σ a with
    | some (.odict es) => !es.isEmpty
    | some (.otbl es) => !es.isEmpty
    | some (.okeys ks) => !ks.isEmpty
    | none => true

/-- Read a record object (`AttributeError`/`TypeError` territory otherwise). -/
def readRec (σ : Store) (a : Nat) : Except HErr HDict :=
  match storeGet σ a with
  | some (.odict es) => .ok es
  | _ => .error .attributeError

/-- Write a record object. -/
def writeRec (σ : Store) (a : Nat) (es : HDict) : Store :=
  storeSet σ a (.odict es)

/-- The empty-identity-field guard (lines 127-130) as a pure check over the
copied entries. -/
def hGuardCheck (es : HDict) : Option HErr :=
  match hdGet es "company" with
  | some (.str "") => some .valueError
  | _ =>
    match hdGet es "brand" with
    | some (.str "") => some .valueError
    | _ =>
      match hdGet es "category" with
      | some (.str "") => some .valueError
      | _ => none

/-- Iterating a field value with `for` (lists, strings, dict keys). -/
def hIterElems (σ : Store) : HVal → Except HErr (List HVal)
  | .list xs => .ok xs
  | .str s => .ok (s.toList.map fun c => .str (String.singleton c))
  | .ref a =>
    match storeGet σ a with
    | some (.odict es) => .ok (es.map fun e => .str e.1)
    | _ => .error .typeError
  | _ => .error .typeError

/-- The URL check (lines 205-209) over the current entries (read-only). -/
def hUrlCheck (σ : Store) : HDict → Option HErr
  | [] => none
  | (k, v) :: rest =>
    if lastSegIsUrl k && hTruthy σ v then
      match v with
      | .str s => if !hasScheme s then some .valueError else hUrlCheck σ rest
      | _ => some .attributeError
    else hUrlCheck σ rest

/-- The string-cleaning pass (lines 198-202) over the entries. -/
def hCleanEntries (es : HDict) : HDict :=
  es.map fun kv =>
    match kv.2 with
    | .str s => (kv.1, HVal.str (clean_string s))
    | v => (kv.1, v)

/-- The key-field emptiness test of line 213. -/
def hEmptyKeyVal (es : HDict) (k : String) : Bool :=
  match hdGet es k with
  | none => true
  | some .hnone => true
  | some (.str "") => true
  | _ => false

/-- The key-filling loop of lines 212-218. -/
def hFillLoop (table : String) (ks : List String) (es : HDict) :
    Except HErr HDict :=
  match ks with
  | [] => .ok es
  | k :: rest =>
    if hEmptyKeyVal es k then
      if exemptKey table k then hFillLoop table rest (hdSet es k (.str ""))
      else .error .valueError
    else hFillLoop table rest es

/-- A value usable inside a hashed key tuple. -/
def hHashable : HVal → Bool
  | .str _ => true
  | .int _ => true
  | .hnone => true
  | .list _ => false
  | .ref _ => false

/-- Python `==` on hashable key components (see `pyKeyEq`). -/
def hKeyEq : HVal → HVal → Bool
  | .str a, .str b => a == b
  | .int a, .int b => a == b
  | .hnone, .hnone => true
  | _, _ => false

/-- Python `==` on two key tuples. -/
def hKeyTupleEq : List HVal → List HVal → Bool
  | [], [] => true
  | x :: xs, y :: ys => hKeyEq x y && hKeyTupleEq xs ys
  | _, _ => false

/-- Row-address lookup by key in a `key_to_row` map. -/
def hKeysGet (m : List (List HVal × Nat)) (key : List HVal) : Option Nat :=
  match m with
  | [] => none
  | (k, a) :: rest => if hKeyTupleEq k key then some a else hKeysGet rest key

/-- `merge(src, dst)` on entries (truthiness of existing values may deref). -/
def hMergeEntries (σ : Store) (src dst : HDict) : HDict :=
  src.foldl
    (fun d kv =>
      if !(match kv.2 with | .hnone => true | _ => false) &&
          (!(match kv.2 with | .str s => s.isEmpty | _ => false) ||
            !(match hdGet d kv.1 with | some v => hTruthy σ v | none => false)) then
        hdSet d kv.1 kv.2
      else d)
    dst

/-- Lines 133-135 (nested `company` dict) on the store. -/
def hNestedCompany (recur : String → HVal → Store → HRes Unit) (recA : Nat)
    (σ : Store) : HRes Unit :=
  match readRec σ recA with
  | .error e => some (.error e, σ)
  | .ok es =>
    match hdGet es "company" with
    | some (.ref dA) =>
      match storeGet σ dA with
      | some (.odict _) =>
        match recur "company" (.ref dA) σ with
        | none => none
        | some (.error e, σ1) => some (.error e, σ1)
        | some (.ok _, σ1) =>
          match readRec σ1 recA with
          | .error e => some (.error e, σ1)
          | .ok es1 =>
            match hdGet es1 "company" with
            | some (.ref dA1) =>
              match storeGet σ1 dA1 with
              | some (.odict d) =>
                match hdGet d "company" with
                | some w => some (.ok (), writeRec σ1 recA (hdSet es1 "company" w))
                | none => some (.error .keyError, σ1)
              | _ => some (.error .typeError, σ1)
            | some _ => some (.error .typeError, σ1)
            | none => some (.error .keyError, σ1)
      | _ => some (.ok (), σ)
    | _ => some (.ok (), σ)

/-- Lines 138-141 (nested `brand` dict) on the store: the recursive expansion,
then `record['company'] = record['brand'].get('company', '')`, then
`record['brand'] = record['brand']['brand']`. -/
def hNestedBrand (recur : String → HVal → Store → HRes Unit) (recA : Nat)
    (σ : Store) : HRes Unit :=
  match readRec σ recA with
  | .error e => some (.error e, σ)
  | .ok es =>
    match hdGet es "brand" with
    | some (.ref dA) =>
      match storeGet σ dA with
      | some (.odict _) =>
        match recur "brand" (.ref dA) σ with
        | none => none
        | some (.error e, σ1) => some (.error e, σ1)
        | some (.ok _, σ1) =>
          match readRec σ1 recA with
          | .error e => some (.error e, σ1)
          | .ok es1 =>
            match hdGet es1 "brand" with
            | some (.ref dA1) =>
              match storeGet σ1 dA1 with
              | some (.odict d) =>
                let es2 := hdSet es1 "company"
                  (match hdGet d "company" with | some v => v | none => .str "")
                let σ2 := writeRec σ1 recA es2
                match hdGet d "brand" with
                | some w => some (.ok (), writeRec σ2 recA (hdSet es2 "brand" w))
                | none => some (.error .keyError, σ2)
              | _ => some (.error .typeError, σ1)
            | some _ => some (.error .typeError, σ1)
            | none => some (.error .keyError, σ1)
      | _ => some (.ok (), σ)
    | _ => some (.ok (), σ)

/-- One element of the `brands` list (lines 149-152): a dict element with its
own `company` key makes `dict(company=company, **brand)` raise `TypeError`;
otherwise the element's `brand` record is built as a fresh dict object and
recursively expanded. -/
def hBrandExpandOne (recur : String → HVal → Store → HRes Unit)
    (c b : HVal) (σ : Store) : HRes Unit :=
  match b with
  | .ref bA =>
    match storeGet σ bA with
    | some (.odict bd) =>
      if hdContains bd "company" then some (.error .typeError, σ)
      else
        let al := allocS σ (.odict (("company", c) :: bd))
        recur "brand" (.ref al.1) al.2
    | _ =>
      let al := allocS σ (.odict [("company", c), ("brand", b)])
      recur "brand" (.ref al.1) al.2
  | _ =>
    let al := allocS σ (.odict [("company", c), ("brand", b)])
    recur "brand" (.ref al.1) al.2

/-- The `brands` fan-out loop (lines 147-152): each iteration re-reads
`company = record['company']` and expands the element.  Returns the final
value of the `company` variable. -/
def hBrandsLoop (recur : String → HVal → Store → HRes Unit) (recA : Nat) :
    List HVal → HVal → Store → HRes HVal
  | [], company0, σ => some (.ok company0, σ)
  | b :: rest, _, σ =>
    match readRec σ recA with
    | .error e => some (.error e, σ)
    | .ok es =>
      match hdGet es "company" with
      | none => some (.error .keyError, σ)
      | some c =>
        match hBrandExpandOne recur c b σ with
        | none => none
        | some (.error e, σ1) => some (.error e, σ1)
        | some (.ok _, σ1) => hBrandsLoop recur recA rest c σ1

/-- One element of the `categories` list (lines 174-179): build the
element's `category` record as a fresh dict object (with or without the
brand) and recursively expand it. -/
def hCatExpandOne (recur : String → HVal → Store → HRes Unit)
    (company brand : HVal) (withBrand : Bool) (c : HVal) (σ : Store) :
    HRes Unit :=
  let al := allocS σ (.odict
    (if withBrand then
      [("company", company), ("brand", brand), ("category", c)]
    else
      [("company", company), ("category", c)]))
  recur "category" (.ref al.1) al.2

/-- The `categories` fan-out loop (lines 173-179). -/
def hCategoriesLoop (recur : String → HVal → Store → HRes Unit)
    (company brand : HVal) (withBrand : Bool) :
    List HVal → Store → HRes Unit
  | [], σ => some (.ok (), σ)
  | c :: rest, σ =>
    match hCatExpandOne recur company brand withBrand c σ with
    | none => none
    | some (.error e, σ1) => some (.error e, σ1)
    | some (.ok _, σ1) => hCategoriesLoop recur company brand withBrand rest σ1

/-- Table lookup in the accumulator's entries. -/
def lookupTbl : List (String × Nat) → String → Option Nat
  | [], _ => none
  | (t, a) :: rest, table => if t = table then some a else lookupTbl rest table

/-- `table_to_key_to_row.setdefault(table, {})` (line 224): the address of
the table's `key_to_row` dict, allocating an empty one and linking it into
the accumulator dict when absent. -/
def hSetdefault (table : String) (accA : Nat) (es : List (String × Nat))
    (σ : Store) : Nat × Store :=
  match lookupTbl es table with
  | some tA => (tA, σ)
  | none =>
    let al := allocS σ (.okeys [])
    (al.1, storeSet al.2 accA (.otbl (es ++ [(table, al.1)])))

/-- Lines 227-230 against the table's `key_to_row` dict: merge into the
existing row object for the key, or insert the copy's address as a new
row. -/
def hStoreRest (key : List HVal) (recA tA : Nat) (σ1 : Store) : HRes Unit :=
  match storeGet σ1 tA with
  | some (.okeys ks) =>
    match hKeysGet ks key with
    | some rowA =>
      match readRec σ1 recA, readRec σ1 rowA with
      | .ok src, .ok dst =>
        some (.ok (), writeRec σ1 rowA (hMergeEntries σ1 src dst))
      | _, _ => some (.error .attributeError, σ1)
    | none =>
      some (.ok (), storeSet σ1 tA (.okeys (ks ++ [(key, recA)])))
  | _ => some (.error .typeError, σ1)

/-- The store/merge step (lines 224-230): hash the key (`TypeError` on an
unhashable component), `setdefault` the table's `key_to_row` dict, then merge
into the existing row object or insert the copy's address as a new row. -/
def hStoreStep (table : String) (key : List HVal) (recA accA : Nat)
    (σ : Store) : HRes Unit :=
  if !key.all hHashable then some (.error .typeError, σ)
  else
    match storeGet σ accA with
    | some (.otbl es) =>
      let sd := hSetdefault table accA es σ
      hStoreRest key recA sd.1 sd.2
    | _ => some (.error .attributeError, σ)

/-- The `brands` step (lines 146-152): pop the field, then fan out. -/
def hBrandsBlock (recur : String → HVal → Store → HRes Unit) (recA : Nat)
    (es1 : HDict) (c0 : HVal) (σ : Store) : HRes HVal :=
  match hdGet es1 "brands" with
  | none => some (.ok c0, σ)
  | some bv =>
    let σp := writeRec σ recA (hdRemove es1 "brands")
    match hIterElems σp bv with
    | .error e => some (.error e, σp)
    | .ok elems => hBrandsLoop recur recA elems c0 σp

/-- The trademark step (lines 154-160) against the current entries. -/
def hTmBlock (recA : Nat) (es2 : HDict) (σ : Store) : HRes Unit :=
  match hdGet es2 "brand" with
  | some bv =>
    if hTruthy σ bv then
      match bv with
      | .str s =>
        let p := tmFold tmSymbols (s.toList, none)
        let es2a := hdSet es2 "brand" (.str (String.mk p.1))
        let es2b := match p.2 with
          | some c => hdSet es2a "tm" (.str (String.singleton c))
          | none => es2a
        some (.ok (), writeRec σ recA es2b)
      | _ => some (.error .attributeError, σ)
    else some (.ok (), σ)
  | none => some (.ok (), σ)

/-- The single-`category` rewrite (lines 166-168) against the current
entries: the store after the conditional write. -/
def hCatSingularStore (table : String) (recA : Nat) (es3 : HDict)
    (σ : Store) : Store :=
  if hdContains es3 "category" &&
      !(table = "category" || strEndsWith table "category") then
    match hdGet es3 "category" with
    | some cv =>
      writeRec σ recA (hdSet (hdRemove es3 "category") "categories" (.list [cv]))
    | none => σ
  else σ

/-- The `categories` step (lines 171-179): pop the field, then fan out. -/
def hCategoriesBlock (recur : String → HVal → Store → HRes Unit)
    (company brand : HVal) (recA : Nat) (es4 : HDict) (σ : Store) :
    HRes Unit :=
  match hdGet es4 "categories" with
  | none => some (.ok (), σ)
  | some cv =>
    let σp := writeRec σ recA (hdRemove es4 "categories")
    match hIterElems σp cv with
    | .error e => some (.error e, σp)
    | .ok elems => hCategoriesLoop recur company brand (hTruthy σp brand) elems σp

/-- The `min_score` default (lines 182-183): the store after the conditional
write. -/
def hScoreStore (recA : Nat) (es5 : HDict) (σ : Store) : Store :=
  if hdContains es5 "score" && !hdContains es5 "min_score" then
    writeRec σ recA (hdSet es5 "min_score" (.int DEFAULT_MIN_SCORE))
  else σ

/-- The automatic `brand` entry (lines 186-187). -/
def hAutoBrandBlock (recur : String → HVal → Store → HRes Unit)
    (table : String) (company brand : HVal) (es6 : HDict) (σ : Store) :
    HRes Unit :=
  if hdContains es6 "brand" && table ≠ "brand" then
    let al := allocS σ (.odict [("company", company), ("brand", brand)])
    recur "brand" (.ref al.1) al.2
  else some (.ok (), σ)

/-- The automatic `company` entry (lines 190-191). -/
def hAutoCompanyBlock (recur : String → HVal → Store → HRes Unit)
    (table : String) (company : HVal) (es7 : HDict) (σ : Store) : HRes Unit :=
  if hdContains es7 "company" && table ≠ "company" then
    let al := allocS σ (.odict [("company", company)])
    recur "company" (.ref al.1) al.2
  else some (.ok (), σ)

/-- The recursive `_add` on the store: shallow-copy the record object to a
fresh address, then run the steps of harness.py:123-230 against the copy,
recursing with decremented fuel.  A non-dict record raises
`AttributeError` (`.copy()` missing). -/
def addStore : Nat → String → HVal → Nat → Store → HRes Unit
  | 0, _, _, _, _ => none
  | n + 1, table, rv, accA, σ =>
    match rv with
    | .ref rA =>
      match storeGet σ rA with
      | some (.odict es0) =>
        let al := allocS σ (.odict es0)
        let recA := al.1
        let σ := al.2
        let recur := fun t v σ' => addStore n t v accA σ'
        match hGuardCheck es0 with
        | some e => some (.error e, σ)
        | none =>
        match hNestedCompany recur recA σ with
        | none => none
        | some (.error e, σ) => some (.error e, σ)
        | some (.ok _, σ) =>
        match hNestedBrand recur recA σ with
        | none => none
        | some (.error e, σ) => some (.error e, σ)
        | some (.ok _, σ) =>
        match readRec σ recA with
        | .error e => some (.error e, σ)
        | .ok es1 =>
        match hBrandsBlock recur recA es1 ((hdGet es1 "company").getD (.str "")) σ with
        | none => none
        | some (.error e, σ) => some (.error e, σ)
        | some (.ok company, σ) =>
        match readRec σ recA with
        | .error e => some (.error e, σ)
        | .ok es2 =>
        match hTmBlock recA es2 σ with
        | none => none
        | some (.error e, σ) => some (.error e, σ)
        | some (.ok _, σ) =>
        match readRec σ recA with
        | .error e => some (.error e, σ)
        | .ok es3 =>
        let brand := (hdGet es3 "brand").getD (.str "")
        let σ := hCatSingularStore table recA es3 σ
        match readRec σ recA with
        | .error e => some (.error e, σ)
        | .ok es4 =>
        match hCategoriesBlock recur company brand recA es4 σ with
        | none => none
        | some (.error e, σ) => some (.error e, σ)
        | some (.ok _, σ) =>
        match readRec σ recA with
        | .error e => some (.error e, σ)
        | .ok es5 =>
        let σ := hScoreStore recA es5 σ
        match readRec σ recA with
        | .error e => some (.error e, σ)
        | .ok es6 =>
        match hAutoBrandBlock recur table company brand es6 σ with
        | none => none
        | some (.error e, σ) => some (.error e, σ)
        | some (.ok _, σ) =>
        match readRec σ recA with
        | .error e => some (.error e, σ)
        | .ok es7 =>
        match hAutoCompanyBlock recur table company es7 σ with
        | none => none
        | some (.error e, σ) => some (.error e, σ)
        | some (.ok _, σ) =>
        match tableToKeyFields table with
        | none => some (.error .keyError, σ)
        | some ks0 =>
        let ks := ks0.filter fun k => !scraperIdKeys.contains k
        match readRec σ recA with
        | .error e => some (.error e, σ)
        | .ok es8 =>
        let σ := writeRec σ recA (hCleanEntries es8)
        match readRec σ recA with
        | .error e => some (.error e, σ)
        | .ok es9 =>
        match hUrlCheck σ es9 with
        | some e => some (.error e, σ)
        | none =>
        match hFillLoop table ks es9 with
        | .error e => some (.error e, σ)
        | .ok es10 =>
        let σ := writeRec σ recA es10
        let key := ks.map fun k => (hdGet es10 k).getD .hnone
        hStoreStep table key recA accA σ
      | _ => some (.error .attributeError, σ)
    | _ => some (.error .attributeError, σ)

mutual
/-- The references held directly by a field value (nested lists included). -/
def hvalRefs : HVal → List Nat
  | .ref a => [a]
  | .list xs => hlistRefs xs
  | _ => []

/-- The references held by the elements of a list value. -/
def hlistRefs : List HVal → List Nat
  | [] => []
  | x :: xs => hvalRefs x ++ hlistRefs xs
end

/-- The references held by the entries of a record object. -/
def hdictRefs : HDict → List Nat
  | [] => []
  | (_, v) :: rest => hvalRefs v ++ hdictRefs rest

/-- The addresses an object points to. -/
def objRefs : Obj → List Nat
  | .odict es => hdictRefs es
  | .otbl es => es.map (·.2)
  | .okeys ks => ks.map (·.2)

/-- One dereference step from an address. -/
def stepRefs (σ : Store) (a : Nat) : List Nat :=
  match storeGet σ a with
  | some o => objRefs o
  | none => []

/-- Addresses reachable from a frontier in at most `n` dereference steps. -/
def reachSteps (σ : Store) : Nat → List Nat → List Nat
  | 0, frontier => frontier
  | n + 1, frontier => frontier ++ reachSteps σ n (frontier.flatMap (stepRefs σ))

/-- All addresses of the caller's record value: its direct references and
everything reachable from them through the store (an acyclic witness path
never needs more than `mem.length` steps). -/
def reachAddrs (σ : Store) (v : HVal) : List Nat :=
  reachSteps σ σ.mem.length (hvalRefs v)

/-- The accumulator structure: the accumulator dict itself, the per-table
`key_to_row` dicts it holds, and the row objects those hold — exactly the
objects `add_record` may legitimately mutate besides its own copies. -/
def accStruct (σ : Store) (accA : Nat) : List Nat :=
  accA :: (tblEntriesOf (storeGet σ accA)).flatMap
    (fun e => e.2 :: rowAddrsOf (storeGet σ e.2))
where
  tblEntriesOf : Option Obj → List (String × Nat)
    | some (.otbl es) => es
    | _ => []
  rowAddrsOf : Option Obj → List Nat
    | some (.okeys ks) => ks.map (·.2)
    | _ => []

/-- The frame relation of one `_add` activation, relative to the watermark
`n0` (the `next` address at the activation's entry): addresses below the
watermark change only inside the accumulator structure, and the accumulator
structure grows only by watermark-fresh addresses. -/
structure FramesAt (accA n0 : Nat) (σ σ' : Store) : Prop where
  next_mono : σ.next ≤ σ'.next
  writes : ∀ a, a < n0 → storeGet σ' a ≠ storeGet σ a → a ∈ accStruct σ accA
  growth : ∀ a, a ∈ accStruct σ' accA → a ∈ accStruct σ accA ∨ n0 ≤ a

/-! ## Supporting lemmas -/

theorem dictGet_dictSet_self (d : Dict) (k : String) (v : PyVal) :
    dictGet (dictSet d k v) k = some v := by
  induction d with
  | nil => simp [dictSet, dictGet]
  | cons e rest ih =>
    obtain ⟨k', v'⟩ := e
    by_cases h : k' = k
    · simp [dictSet, dictGet, h]
    · simp [dictSet, dictGet, h, ih]

theorem dictGet_dictSet_ne (d : Dict) (k k' : String) (v : PyVal) (h : k' ≠ k) :
    dictGet (dictSet d k v) k' = dictGet d k' := by
  induction d with
  | nil => simp [dictSet, dictGet, Ne.symm h]
  | cons e rest ih =>
    obtain ⟨k'', v''⟩ := e
    by_cases h2 : k'' = k
    · subst h2
      simp [dictSet, dictGet, h, Ne.symm h]
    · by_cases h3 : k'' = k'
      · simp [dictSet, dictGet, h2, h3, h]
      · simp [dictSet, dictGet, h2, h3, ih]

theorem firstIdx_eq_none (p : Char → Bool) (s : List Char) :
    firstIdx p s = none ↔ ∀ c ∈ s, p c = false := by
  induction s with
  | nil => simp [firstIdx]
  | cons c rest ih =>
    by_cases h : p c
    · simp [firstIdx, h]
    · simp only [firstIdx, h, if_neg, Bool.false_eq_true, if_false,
        Option.map_eq_none', List.mem_cons]
      constructor
      · intro hn x hx
        rcases hx with hx | hx
        · subst hx; exact Bool.eq_false_iff.mpr h
        · exact (ih.mp hn) x hx
      · intro hall
        exact ih.mpr fun x hx => hall x (Or.inr hx)

theorem firstIdx_eq_some (p : Char → Bool) :
    ∀ (s : List Char) (i : Nat),
      firstIdx p s = some i ↔
        ((∀ c ∈ s.take i, p c = false) ∧ ∃ c, s.get? i = some c ∧ p c = true) := by
  intro s
  induction s with
  | nil => intro i; simp [firstIdx]
  | cons c rest ih =>
    intro i
    by_cases h : p c
    · cases i with
      | zero => simp [firstIdx, h]
      | succ j =>
        simp only [firstIdx, h, if_true, List.take_succ_cons, List.mem_cons]
        constructor
        · intro habs; exact absurd habs (by simp)
        · rintro ⟨hall, -⟩
          exact absurd (hall c (Or.inl rfl)) (by simp [h])
    · cases i with
      | zero =>
        simp only [firstIdx, h, Bool.false_eq_true, if_false, List.take_zero,
          List.not_mem_nil, false_implies, implies_true, true_and,
          List.get?_cons_zero, Option.some.injEq]
        constructor
        · intro habs
          rcases Option.map_eq_some'.mp habs with ⟨a, -, ha2⟩
          omega
        · rintro ⟨d, hd, hpd⟩
          subst hd; exact absurd hpd (by simp [h])
      | succ j =>
        simp only [firstIdx, h, Bool.false_eq_true, if_false, List.take_succ_cons,
          List.mem_cons, List.get?_cons_succ]
        constructor
        · intro hm
          rcases Option.map_eq_some'.mp hm with ⟨a, ha, ha2⟩
          have haj : a = j := by omega
          rw [haj] at ha
          rcases (ih j).mp ha with ⟨hall, hex⟩
          exact ⟨fun x hx => hx.elim (fun he => he ▸ (by simpa using h))
            (fun hx => hall x hx), hex⟩
        · rintro ⟨hall, hex⟩
          have := (ih j).mpr ⟨fun x hx => hall x (Or.inr hx), hex⟩
          rw [this]; rfl

theorem firstIdx_congr (p q : Char → Bool) (s : List Char)
    (h : ∀ c ∈ s, p c = q c) : firstIdx p s = firstIdx q s := by
  induction s with
  | nil => rfl
  | cons c rest ih =>
    have hc := h c (by simp)
    simp only [firstIdx, hc]
    rw [ih fun x hx => h x (List.mem_cons_of_mem _ hx)]

/-- The trademark loop computes the earliest occurrence of any glyph: after
folding over all of `syms`, the brand is truncated at the first position
holding any glyph of `syms`, and the recorded glyph is the one at that
position; a glyph-free brand is untouched. -/
theorem tmFold_spec (syms : List Char) :
    ∀ (s : List Char) (t0 : Option Char),
      tmFold syms (s, t0) =
        match firstIdx (fun c => syms.contains c) s with
        | none => (s, t0)
        | some i => (s.take i, s.get? i) := by
  induction syms with
  | nil =>
    intro s t0
    have hn : firstIdx (fun c => List.contains ([] : List Char) c) s = none :=
      (firstIdx_eq_none _ _).mpr (by simp)
    rw [hn]
    rfl
  | cons c cs ih =>
    intro s t0
    have hstep : tmFold (c :: cs) (s, t0) =
        tmFold cs (match firstIdx (fun x => x == c) s with
          | some i => (s.take i, some c)
          | none => (s, t0)) := by
      simp [tmFold]
    cases hfc : firstIdx (fun x => x == c) s with
    | none =>
      have hcs : ∀ x ∈ s, ((c :: cs).contains x) = (cs.contains x) := by
        intro x hx
        have h1 : ¬(x = c) := by
          simpa using (firstIdx_eq_none _ _).mp hfc x hx
        simp [List.contains_cons, h1]
      rw [hstep, hfc, ih s t0,
        firstIdx_congr (fun x => (c :: cs).contains x) (fun x => cs.contains x) s hcs]
    | some i =>
      obtain ⟨hpre, ch, hch, hche⟩ := (firstIdx_eq_some _ s i).mp hfc
      have hch2 : s.get? i = some c := by
        have hcc : ch = c := by simpa using hche
        rw [hcc] at hch
        exact hch
      rw [hstep, hfc, ih (s.take i) (some c)]
      cases hcs : firstIdx (fun x => cs.contains x) (s.take i) with
      | none =>
        have hgoal : firstIdx (fun x => (c :: cs).contains x) s = some i := by
          rw [firstIdx_eq_some]
          refine ⟨?_, c, hch2, by simp [List.contains_cons]⟩
          intro x hx
          have h1 : ¬(x = c) := by simpa using hpre x hx
          have h2 : ¬(x ∈ cs) := by simpa using (firstIdx_eq_none _ _).mp hcs x hx
          simp [List.contains_cons, h1, h2]
        rw [hgoal]
        show (List.take i s, some c) = (List.take i s, s.get? i)
        rw [hch2]
      | some j =>
        obtain ⟨hpre2, ch2, hch3, hche2⟩ := (firstIdx_eq_some _ (s.take i) j).mp hcs
        have hji : j < i := by
          have hlen := List.get?_eq_some.mp hch3
          rcases hlen with ⟨hlt, -⟩
          simp only [List.length_take, lt_min_iff] at hlt
          exact hlt.1
        have htake : (s.take i).take j = s.take j := by
          rw [List.take_take, min_eq_left (le_of_lt hji)]
        have hget : (s.take i).get? j = s.get? j := List.get?_take hji
        have hgoal : firstIdx (fun x => (c :: cs).contains x) s = some j := by
          rw [firstIdx_eq_some]
          refine ⟨?_, ch2, by rw [← hget]; exact hch3,
            by simp only [List.contains_cons, Bool.or_eq_true]; exact Or.inr hche2⟩
          intro x hx
          have hx' : x ∈ (s.take i).take j := by rw [htake]; exact hx
          have h2 : ¬(x ∈ cs) := by simpa using hpre2 x hx'
          have hxi : x ∈ s.take i := List.take_subset _ _ hx'
          have h1 : ¬(x = c) := by simpa using hpre x hxi
          simp [List.contains_cons, h1, h2]
        rw [hgoal]
        show ((s.take i).take j, (s.take i).get? j) = (s.take j, s.get? j)
        rw [htake, hget]

theorem emptyKeyVal_dictSet_empty (record : Dict) (k : String)
    (h : emptyKeyVal record k = true) (k' : String) :
    emptyKeyVal (dictSet record k (.str "")) k' = emptyKeyVal record k' := by
  by_cases hk : k' = k
  · subst hk
    rw [show emptyKeyVal (dictSet record k' (.str "")) k' = true by
      simp [emptyKeyVal, dictGet_dictSet_self], h]
  · simp [emptyKeyVal, dictGet_dictSet_ne record k k' _ hk]

theorem fillKeys_get_preserve (table : String) :
    ∀ (ks : List String) (record r' : Dict),
      fillKeys table ks record = .ok r' →
      ∀ k, dictGet r' k = dictGet record k ∨ dictGet r' k = some (.str "") := by
  intro ks
  induction ks with
  | nil =>
    intro record r' h k
    cases h
    exact Or.inl rfl
  | cons k0 rest ih =>
    intro record r' h k
    by_cases he : emptyKeyVal record k0
    · by_cases hx : exemptKey table k0
      · simp only [fillKeys, he, hx, if_true] at h
        rcases ih _ _ h k with h1 | h1
        · by_cases hk : k = k0
          · subst hk
            rw [h1, dictGet_dictSet_self]
            exact Or.inr rfl
          · rw [h1, dictGet_dictSet_ne record k0 k _ hk]
            exact Or.inl rfl
        · exact Or.inr h1
      · simp [fillKeys, he, hx] at h
    · simp only [fillKeys, he, Bool.false_eq_true, if_false] at h
      exact ih _ _ h k

/-! ## Frame lemmas for the store-based embedding -/

theorem storeGet_storeSet_self (σ : Store) (a : Nat) (o : Obj) :
    storeGet (storeSet σ a o) a = some o := by
  show storeGet.lookupMem (storeSet.setMem σ.mem a o) a = some o
  induction σ.mem with
  | nil => simp [storeSet.setMem, storeGet.lookupMem]
  | cons e rest ih =>
    obtain ⟨b, o'⟩ := e
    by_cases hb : b = a
    · simp [storeSet.setMem, storeGet.lookupMem, hb]
    · simp [storeSet.setMem, storeGet.lookupMem, hb, ih]

theorem storeGet_storeSet_ne (σ : Store) (a b : Nat) (o : Obj) (h : b ≠ a) :
    storeGet (storeSet σ a o) b = storeGet σ b := by
  show storeGet.lookupMem (storeSet.setMem σ.mem a o) b =
    storeGet.lookupMem σ.mem b
  induction σ.mem with
  | nil => simp [storeSet.setMem, storeGet.lookupMem, Ne.symm h]
  | cons e rest ih =>
    obtain ⟨c, o'⟩ := e
    by_cases hc : c = a
    · subst hc
      simp [storeSet.setMem, storeGet.lookupMem, Ne.symm h]
    · by_cases hcb : c = b
      · simp [storeSet.setMem, storeGet.lookupMem, hc, hcb, h]
      · simp [storeSet.setMem, storeGet.lookupMem, hc, hcb, ih]

theorem storeGet_allocS (σ : Store) (o : Obj) (a : Nat) :
    storeGet (allocS σ o).2 a =
      if σ.next = a then some o else storeGet σ a := rfl

theorem storeGet_allocS_self (σ : Store) (o : Obj) :
    storeGet (allocS σ o).2 σ.next = some o := by
  rw [storeGet_allocS, if_pos rfl]

theorem storeGet_allocS_ne (σ : Store) (o : Obj) (a : Nat) (h : a ≠ σ.next) :
    storeGet (allocS σ o).2 a = storeGet σ a := by
  rw [storeGet_allocS, if_neg (Ne.symm h)]

theorem accA_mem_accStruct (σ : Store) (accA : Nat) :
    accA ∈ accStruct σ accA := by
  simp [accStruct]

theorem tbl_mem_accStruct (σ : Store) (accA : Nat) {t : String} {tA : Nat}
    (h : (t, tA) ∈ accStruct.tblEntriesOf (storeGet σ accA)) :
    tA ∈ accStruct σ accA := by
  simp only [accStruct, List.mem_cons, List.mem_flatMap]
  exact Or.inr ⟨(t, tA), h, by simp⟩

theorem row_mem_accStruct (σ : Store) (accA : Nat) {t : String} {tA rA : Nat}
    (h1 : (t, tA) ∈ accStruct.tblEntriesOf (storeGet σ accA))
    (h2 : rA ∈ accStruct.rowAddrsOf (storeGet σ tA)) :
    rA ∈ accStruct σ accA := by
  simp only [accStruct, List.mem_cons, List.mem_flatMap]
  exact Or.inr ⟨(t, tA), h1, by simp [h2]⟩

/-- Writing a record object anywhere can only shrink the accumulator
structure: record objects contribute neither table entries nor rows. -/
theorem accStruct_storeSet_odict (σ : Store) (accA a : Nat) (es : HDict) :
    ∀ x ∈ accStruct (storeSet σ a (.odict es)) accA, x ∈ accStruct σ accA := by
  intro x hx
  by_cases hacc : accA = a
  · have h' : accStruct (storeSet σ a (.odict es)) accA = [accA] := by
      rw [hacc]
      simp [accStruct, storeGet_storeSet_self, accStruct.tblEntriesOf]
    rw [h'] at hx
    simp at hx
    rw [hx]
    exact accA_mem_accStruct σ accA
  · have hsame : storeGet (storeSet σ a (.odict es)) accA = storeGet σ accA :=
      storeGet_storeSet_ne σ a accA _ hacc
    simp only [accStruct, hsame, List.mem_cons, List.mem_flatMap] at hx
    rcases hx with hx1 | ⟨e, he, hx⟩
    · rw [hx1]
      exact accA_mem_accStruct σ accA
    · rcases hx with hx2 | hx
      · rw [hx2]
        exact tbl_mem_accStruct σ accA he
      · by_cases he2 : e.2 = a
        · rw [he2, storeGet_storeSet_self] at hx
          simp [accStruct.rowAddrsOf] at hx
        · rw [storeGet_storeSet_ne σ a e.2 _ he2] at hx
          exact row_mem_accStruct σ accA he hx

/-- Allocating a record object or an empty `key_to_row` dict leaves the
accumulator structure unchanged (as a set). -/
theorem accStruct_allocS_sub (σ : Store) (accA : Nat) (o : Obj)
    (h1 : accStruct.tblEntriesOf (some o) = [])
    (h2 : accStruct.rowAddrsOf (some o) = []) :
    ∀ x ∈ accStruct (allocS σ o).2 accA, x ∈ accStruct σ accA := by
  intro x hx
  have hget : ∀ b, accStruct.tblEntriesOf (storeGet (allocS σ o).2 b) = [] ∨
      accStruct.tblEntriesOf (storeGet (allocS σ o).2 b) =
        accStruct.tblEntriesOf (storeGet σ b) := by
    intro b
    rw [storeGet_allocS]
    by_cases hb : σ.next = b
    · rw [if_pos hb]
      exact Or.inl h1
    · rw [if_neg hb]
      exact Or.inr rfl
  have hget2 : ∀ b, accStruct.rowAddrsOf (storeGet (allocS σ o).2 b) = [] ∨
      accStruct.rowAddrsOf (storeGet (allocS σ o).2 b) =
        accStruct.rowAddrsOf (storeGet σ b) := by
    intro b
    rw [storeGet_allocS]
    by_cases hb : σ.next = b
    · rw [if_pos hb]
      exact Or.inl h2
    · rw [if_neg hb]
      exact Or.inr rfl
  simp only [accStruct, List.mem_cons, List.mem_flatMap] at hx
  rcases hx with hx1 | ⟨e, he, hx⟩
  · rw [hx1]
    exact accA_mem_accStruct σ accA
  · have he' : e ∈ accStruct.tblEntriesOf (storeGet σ accA) := by
      rcases hget accA with hg | hg
      · rw [hg] at he
        exact absurd he (List.not_mem_nil e)
      · rw [hg] at he
        exact he
    rcases hx with hx2 | hx
    · rw [hx2]
      exact tbl_mem_accStruct σ accA he'
    · rcases hget2 e.2 with hg | hg
      · rw [hg] at hx
        exact absurd hx (List.not_mem_nil x)
      · rw [hg] at hx
        exact row_mem_accStruct σ accA he' hx

theorem framesAt_refl (accA n0 : Nat) (σ : Store) : FramesAt accA n0 σ σ :=
  ⟨le_refl _, fun _ _ h => absurd rfl h, fun _ h => Or.inl h⟩

theorem framesAt_trans {accA n0 : Nat} {σ1 σ2 σ3 : Store}
    (f : FramesAt accA n0 σ1 σ2) (g : FramesAt accA n0 σ2 σ3) :
    FramesAt accA n0 σ1 σ3 := by
  refine ⟨le_trans f.next_mono g.next_mono, ?_, ?_⟩
  · intro a ha hch
    by_cases h12 : storeGet σ2 a = storeGet σ1 a
    · have h23 : storeGet σ3 a ≠ storeGet σ2 a := by rw [h12]; exact hch
      rcases f.growth a (g.writes a ha h23) with hin | hge
      · exact hin
      · exact absurd ha (not_lt.mpr hge)
    · exact f.writes a ha h12
  · intro a ha
    rcases g.growth a ha with h2 | h2
    · exact f.growth a h2
    · exact Or.inr h2

theorem framesAt_mono {accA n0 n1 : Nat} {σ σ2 : Store} (h : n0 ≤ n1)
    (f : FramesAt accA n1 σ σ2) : FramesAt accA n0 σ σ2 := by
  refine ⟨f.next_mono, ?_, ?_⟩
  · intro a ha hch
    exact f.writes a (lt_of_lt_of_le ha h) hch
  · intro a ha
    rcases f.growth a ha with h2 | h2
    · exact Or.inl h2
    · exact Or.inr (le_trans h h2)

theorem framesAt_writeRec {accA n0 : Nat} (σ : Store) (recA : Nat) (es : HDict)
    (hrec : n0 ≤ recA) : FramesAt accA n0 σ (writeRec σ recA es) := by
  refine ⟨le_of_eq rfl, ?_, ?_⟩
  · intro a ha hch
    have hne : a ≠ recA := by omega
    exact absurd (storeGet_storeSet_ne σ recA a _ hne) hch
  · intro x hx
    exact Or.inl (accStruct_storeSet_odict σ accA recA es x hx)

theorem framesAt_allocS {accA n0 : Nat} (σ : Store) (o : Obj)
    (h1 : accStruct.tblEntriesOf (some o) = [])
    (h2 : accStruct.rowAddrsOf (some o) = [])
    (hn : n0 ≤ σ.next) : FramesAt accA n0 σ (allocS σ o).2 := by
  refine ⟨Nat.le_succ _, ?_, ?_⟩
  · intro a ha hch
    have hne : a ≠ σ.next := by omega
    exact absurd (storeGet_allocS_ne σ o a hne) hch
  · intro x hx
    exact Or.inl (accStruct_allocS_sub σ accA o h1 h2 x hx)

/-- Allocating a record object. -/
theorem framesAt_allocRec {accA n0 : Nat} (σ : Store) (es : HDict)
    (hn : n0 ≤ σ.next) : FramesAt accA n0 σ (allocS σ (.odict es)).2 :=
  framesAt_allocS σ (.odict es) rfl rfl hn

/-- Allocating an empty `key_to_row` dict. -/
theorem framesAt_allocKeys {accA n0 : Nat} (σ : Store)
    (hn : n0 ≤ σ.next) : FramesAt accA n0 σ (allocS σ (.okeys [])).2 :=
  framesAt_allocS σ (.okeys []) rfl rfl hn

theorem lookupTbl_mem :
    ∀ (es : List (String × Nat)) (table : String) (tA : Nat),
      lookupTbl es table = some tA → (table, tA) ∈ es := by
  intro es
  induction es with
  | nil => intro table tA h; exact Option.noConfusion h
  | cons e rest ih =>
    intro table tA h
    obtain ⟨t, a⟩ := e
    by_cases ht : t = table
    · simp only [lookupTbl, ht, if_true, Option.some.injEq] at h
      rw [ht, h]
      exact List.mem_cons_self _ _
    · simp only [lookupTbl, ht, Bool.false_eq_true, if_false] at h
      exact List.mem_cons_of_mem _ (ih table tA h)

theorem hKeysGet_mem :
    ∀ (ks : List (List HVal × Nat)) (key : List HVal) (rowA : Nat),
      hKeysGet ks key = some rowA → rowA ∈ ks.map (·.2) := by
  intro ks
  induction ks with
  | nil => intro key rowA h; exact Option.noConfusion h
  | cons e rest ih =>
    intro key rowA h
    obtain ⟨k, a⟩ := e
    by_cases hk : hKeyTupleEq k key
    · simp only [hKeysGet, hk, if_true, Option.some.injEq] at h
      rw [← h]
      simp
    · simp only [hKeysGet, hk, Bool.false_eq_true, if_false] at h
      simp only [List.map_cons, List.mem_cons]
      exact Or.inr (ih key rowA h)

/-- One `setdefault(table, {})` that actually inserts: allocate an empty
`key_to_row` dict and extend the accumulator dict with it. -/
theorem framesAt_setdefault {accA n0 : Nat} (σ : Store) (table : String)
    (es : List (String × Nat)) (hacc : storeGet σ accA = some (.otbl es))
    (hn : n0 ≤ σ.next) :
    FramesAt accA n0 σ
      (storeSet (allocS σ (.okeys [])).2 accA
        (.otbl (es ++ [(table, σ.next)]))) := by
  set σa := (allocS σ (.okeys [])).2 with hσa
  set σ1 := storeSet σa accA (.otbl (es ++ [(table, σ.next)])) with hσ1
  have hnext1 : σ1.next = σ.next + 1 := rfl
  refine ⟨by omega, ?_, ?_⟩
  · intro a ha hch
    by_cases haa : a = accA
    · rw [haa]
      exact accA_mem_accStruct σ accA
    · have h1 : storeGet σ1 a = storeGet σa a := storeGet_storeSet_ne σa accA a _ haa
      have h2 : storeGet σa a = storeGet σ a :=
        storeGet_allocS_ne σ _ a (by omega)
      rw [h1, h2] at hch
      exact absurd rfl hch
  · intro x hx
    have hget1 : storeGet σ1 accA = some (.otbl (es ++ [(table, σ.next)])) :=
      storeGet_storeSet_self σa accA _
    simp only [accStruct, hget1, accStruct.tblEntriesOf, List.mem_cons,
      List.mem_flatMap, List.mem_append] at hx
    rcases hx with hx1 | ⟨e, he, hx⟩
    · rw [hx1]
      exact Or.inl (accA_mem_accStruct σ accA)
    · have hrows : ∀ b, accStruct.rowAddrsOf (storeGet σ1 b) = [] ∨
          accStruct.rowAddrsOf (storeGet σ1 b) =
            accStruct.rowAddrsOf (storeGet σ b) := by
        intro b
        by_cases hb : b = accA
        · rw [hb, hget1]
          exact Or.inl rfl
        · rw [storeGet_storeSet_ne σa accA b _ hb]
          by_cases hbn : b = σ.next
          · rw [hbn, storeGet_allocS_self]
            exact Or.inl rfl
          · rw [storeGet_allocS_ne σ _ b hbn]
            exact Or.inr rfl
      rcases he with he | he
      · rcases hx with hx2 | hx
        · rw [hx2]
          exact Or.inl (tbl_mem_accStruct σ accA (by rw [hacc]; exact he))
        · rcases hrows e.2 with hr | hr
          · rw [hr] at hx
            exact absurd hx (List.not_mem_nil x)
          · rw [hr] at hx
            exact Or.inl
              (row_mem_accStruct σ accA (by rw [hacc]; exact he) hx)
      · have he' : e = (table, σ.next) := by simpa using he
        rw [he'] at hx
        rcases hx with hx2 | hx
        · rw [hx2]
          exact Or.inr hn
        · rcases hrows σ.next with hr | hr
          · rw [hr] at hx
            exact absurd hx (List.not_mem_nil x)
          · rw [hr] at hx
            exfalso
            have : accStruct.rowAddrsOf (storeGet σ1 (σ.next : Nat)) = [] := by
              by_cases hb : (σ.next : Nat) = accA
              · rw [hb, hget1]
                rfl
              · rw [storeGet_storeSet_ne σa accA _ _ hb, storeGet_allocS_self]
                rfl
            rw [this] at hr
            rw [← hr] at hx
            exact absurd hx (List.not_mem_nil x)

/-- Inserting the copy's address as a new row of a `key_to_row` dict. -/
theorem framesAt_insertRow {accA n0 : Nat} (σ : Store) (tA recA : Nat)
    (t : String) (key : List HVal) (ks : List (List HVal × Nat))
    (htA : (t, tA) ∈ accStruct.tblEntriesOf (storeGet σ accA))
    (hks : storeGet σ tA = some (.okeys ks))
    (hrec : n0 ≤ recA) :
    FramesAt accA n0 σ (storeSet σ tA (.okeys (ks ++ [(key, recA)]))) := by
  refine ⟨le_of_eq rfl, ?_, ?_⟩
  · intro a ha hch
    by_cases hat : a = tA
    · rw [hat]
      exact tbl_mem_accStruct σ accA htA
    · exact absurd (storeGet_storeSet_ne σ tA a _ hat) hch
  · intro x hx
    by_cases hacc : accA = tA
    · have h' : accStruct (storeSet σ tA (.okeys (ks ++ [(key, recA)]))) accA =
          [accA] := by
        rw [hacc]
        simp [accStruct, storeGet_storeSet_self, accStruct.tblEntriesOf]
      rw [h'] at hx
      simp at hx
      rw [hx]
      exact Or.inl (accA_mem_accStruct σ accA)
    · have hsame : storeGet (storeSet σ tA (.okeys (ks ++ [(key, recA)]))) accA =
          storeGet σ accA :=
        storeGet_storeSet_ne σ tA accA _ hacc
      simp only [accStruct, hsame, List.mem_cons, List.mem_flatMap] at hx
      rcases hx with hx1 | ⟨e, he, hx⟩
      · rw [hx1]
        exact Or.inl (accA_mem_accStruct σ accA)
      · rcases hx with hx2 | hx
        · rw [hx2]
          exact Or.inl (tbl_mem_accStruct σ accA he)
        · by_cases he2 : e.2 = tA
          · rw [he2, storeGet_storeSet_self] at hx
            simp only [accStruct.rowAddrsOf, List.map_append,
              List.mem_append] at hx
            rcases hx with hx | hx
            · refine Or.inl (row_mem_accStruct σ accA he ?_)
              rw [he2, hks]
              exact hx
            · simp only [List.map_cons, List.map_nil,
                List.mem_singleton] at hx
              rw [hx]
              exact Or.inr hrec
          · rw [storeGet_storeSet_ne σ tA e.2 _ he2] at hx
            exact Or.inl (row_mem_accStruct σ accA he hx)

/-- Overwriting an existing row object (the merge case). -/
theorem framesAt_writeRow {accA n0 : Nat} (σ : Store) (rowA : Nat) (es : HDict)
    (t : String) (tA : Nat)
    (htA : (t, tA) ∈ accStruct.tblEntriesOf (storeGet σ accA))
    (hrow : rowA ∈ accStruct.rowAddrsOf (storeGet σ tA)) :
    FramesAt accA n0 σ (writeRec σ rowA es) := by
  refine ⟨le_of_eq rfl, ?_, ?_⟩
  · intro a ha hch
    by_cases har : a = rowA
    · rw [har]
      exact row_mem_accStruct σ accA htA hrow
    · exact absurd (storeGet_storeSet_ne σ rowA a _ har) hch
  · intro x hx
    exact Or.inl (accStruct_storeSet_odict σ accA rowA es x hx)

/-- Every result of the nested-`company` step respects the frame, provided
recursive expansions do. -/
theorem hNestedCompany_frames {accA n0 : Nat}
    (recur : String → HVal → Store → HRes Unit)
    (hrecur : ∀ t v σa r σb, recur t v σa = some (r, σb) →
      FramesAt accA σa.next σa σb)
    (recA : Nat) (σ : Store) (r : Except HErr Unit) (σ2 : Store)
    (hrecA : n0 ≤ recA) (hn : n0 ≤ σ.next)
    (h : hNestedCompany recur recA σ = some (r, σ2)) :
    FramesAt accA n0 σ σ2 := by
  unfold hNestedCompany at h
  split at h
  · injection h with h'
    injection h' with h1 h2
    rw [← h2]
    exact framesAt_refl accA n0 σ
  · split at h
    · split at h
      · split at h
        · exact Option.noConfusion h
        · rename_i σ1 heq
          injection h with h'
          injection h' with h1 h2
          rw [← h2]
          exact framesAt_mono hn (hrecur _ _ _ _ _ heq)
        · rename_i σ1 heq
          have hrec1 : FramesAt accA n0 σ σ1 :=
            framesAt_mono hn (hrecur _ _ _ _ _ heq)
          split at h
          · injection h with h'
            injection h' with h1 h2
            rw [← h2]
            exact hrec1
          · split at h
            · split at h
              · split at h
                · injection h with h'
                  injection h' with h1 h2
                  rw [← h2]
                  refine framesAt_trans hrec1 (framesAt_writeRec σ1 recA _ hrecA)
                · injection h with h'
                  injection h' with h1 h2
                  rw [← h2]
                  exact hrec1
              · injection h with h'
                injection h' with h1 h2
                rw [← h2]
                exact hrec1
            · injection h with h'
              injection h' with h1 h2
              rw [← h2]
              exact hrec1
            · injection h with h'
              injection h' with h1 h2
              rw [← h2]
              exact hrec1
      · injection h with h'
        injection h' with h1 h2
        rw [← h2]
        exact framesAt_refl accA n0 σ
    · injection h with h'
      injection h' with h1 h2
      rw [← h2]
      exact framesAt_refl accA n0 σ

/-- Every result of the nested-`brand` step respects the frame. -/
theorem hNestedBrand_frames {accA n0 : Nat}
    (recur : String → HVal → Store → HRes Unit)
    (hrecur : ∀ t v σa r σb, recur t v σa = some (r, σb) →
      FramesAt accA σa.next σa σb)
    (recA : Nat) (σ : Store) (r : Except HErr Unit) (σ2 : Store)
    (hrecA : n0 ≤ recA) (hn : n0 ≤ σ.next)
    (h : hNestedBrand recur recA σ = some (r, σ2)) :
    FramesAt accA n0 σ σ2 := by
  unfold hNestedBrand at h
  split at h
  · injection h with h'
    injection h' with h1 h2
    rw [← h2]
    exact framesAt_refl accA n0 σ
  · split at h
    · split at h
      · split at h
        · exact Option.noConfusion h
        · rename_i σ1 heq
          injection h with h'
          injection h' with h1 h2
          rw [← h2]
          exact framesAt_mono hn (hrecur _ _ _ _ _ heq)
        · rename_i σ1 heq
          have hrec1 : FramesAt accA n0 σ σ1 :=
            framesAt_mono hn (hrecur _ _ _ _ _ heq)
          split at h
          · injection h with h'
            injection h' with h1 h2
            rw [← h2]
            exact hrec1
          · split at h
            · split at h
              · split at h
                · split at h
                  · injection h with h'
                    injection h' with h1 h2
                    rw [← h2]
                    exact framesAt_trans hrec1
                      (framesAt_trans (framesAt_writeRec σ1 recA _ hrecA)
                        (framesAt_writeRec _ recA _ hrecA))
                  · injection h with h'
                    injection h' with h1 h2
                    rw [← h2]
                    exact framesAt_trans hrec1
                      (framesAt_writeRec σ1 recA _ hrecA)
                · split at h
                  · injection h with h'
                    injection h' with h1 h2
                    rw [← h2]
                    exact framesAt_trans hrec1
                      (framesAt_trans (framesAt_writeRec σ1 recA _ hrecA)
                        (framesAt_writeRec _ recA _ hrecA))
                  · injection h with h'
                    injection h' with h1 h2
                    rw [← h2]
                    exact framesAt_trans hrec1
                      (framesAt_writeRec σ1 recA _ hrecA)
              · injection h with h'
                injection h' with h1 h2
                rw [← h2]
                exact hrec1
            · injection h with h'
              injection h' with h1 h2
              rw [← h2]
              exact hrec1
            · injection h with h'
              injection h' with h1 h2
              rw [← h2]
              exact hrec1
      · injection h with h'
        injection h' with h1 h2
        rw [← h2]
        exact framesAt_refl accA n0 σ
    · injection h with h'
      injection h' with h1 h2
      rw [← h2]
      exact framesAt_refl accA n0 σ

/-- Every result of one `brands`-element expansion respects the frame. -/
theorem hBrandExpandOne_frames {accA n0 : Nat}
    (recur : String → HVal → Store → HRes Unit)
    (hrecur : ∀ t v σa r σb, recur t v σa = some (r, σb) →
      FramesAt accA σa.next σa σb)
    (c b : HVal) (σ : Store) (r : Except HErr Unit) (σ2 : Store)
    (hn : n0 ≤ σ.next)
    (h : hBrandExpandOne recur c b σ = some (r, σ2)) :
    FramesAt accA n0 σ σ2 := by
  unfold hBrandExpandOne at h
  split at h
  · split at h
    · split at h
      · injection h with h'
        injection h' with h1 h2
        rw [← h2]
        exact framesAt_refl accA n0 σ
      · exact framesAt_trans (framesAt_allocRec σ _ hn)
          (framesAt_mono (Nat.le_succ_of_le hn) (hrecur _ _ _ _ _ h))
    · exact framesAt_trans (framesAt_allocRec σ _ hn)
        (framesAt_mono (Nat.le_succ_of_le hn) (hrecur _ _ _ _ _ h))
  · exact framesAt_trans (framesAt_allocRec σ _ hn)
      (framesAt_mono (Nat.le_succ_of_le hn) (hrecur _ _ _ _ _ h))

/-- Every result of the `brands` fan-out loop respects the frame. -/
theorem hBrandsLoop_frames {accA n0 : Nat}
    (recur : String → HVal → Store → HRes Unit)
    (hrecur : ∀ t v σa r σb, recur t v σa = some (r, σb) →
      FramesAt accA σa.next σa σb)
    (recA : Nat) :
    ∀ (elems : List HVal) (c0 : HVal) (σ : Store) (r : Except HErr HVal)
      (σ2 : Store), n0 ≤ σ.next →
      hBrandsLoop recur recA elems c0 σ = some (r, σ2) →
      FramesAt accA n0 σ σ2 := by
  intro elems
  induction elems with
  | nil =>
    intro c0 σ r σ2 hn h
    injection h with h'
    injection h' with h1 h2
    rw [← h2]
    exact framesAt_refl accA n0 σ
  | cons b rest ih =>
    intro c0 σ r σ2 hn h
    unfold hBrandsLoop at h
    split at h
    · injection h with h'
      injection h' with h1 h2
      rw [← h2]
      exact framesAt_refl accA n0 σ
    · split at h
      · injection h with h'
        injection h' with h1 h2
        rw [← h2]
        exact framesAt_refl accA n0 σ
      · split at h
        · exact Option.noConfusion h
        · rename_i σ1 heq
          injection h with h'
          injection h' with h1 h2
          rw [← h2]
          exact hBrandExpandOne_frames recur hrecur _ _ σ _ σ1 hn heq
        · rename_i σ1 heq
          have hstep : FramesAt accA n0 σ σ1 :=
            hBrandExpandOne_frames recur hrecur _ _ σ _ σ1 hn heq
          exact framesAt_trans hstep
            (ih _ σ1 r σ2 (le_trans hn hstep.next_mono) h)

/-- Every result of the `categories` fan-out loop respects the frame. -/
theorem hCategoriesLoop_frames {accA n0 : Nat}
    (recur : String → HVal → Store → HRes Unit)
    (hrecur : ∀ t v σa r σb, recur t v σa = some (r, σb) →
      FramesAt accA σa.next σa σb)
    (company brand : HVal) (withBrand : Bool) :
    ∀ (elems : List HVal) (σ : Store) (r : Except HErr Unit) (σ2 : Store),
      n0 ≤ σ.next →
      hCategoriesLoop recur company brand withBrand elems σ = some (r, σ2) →
      FramesAt accA n0 σ σ2 := by
  intro elems
  induction elems with
  | nil =>
    intro σ r σ2 hn h
    injection h with h'
    injection h' with h1 h2
    rw [← h2]
    exact framesAt_refl accA n0 σ
  | cons c rest ih =>
    intro σ r σ2 hn h
    unfold hCategoriesLoop at h
    split at h
    · exact Option.noConfusion h
    · rename_i σ1 heq
      injection h with h'
      injection h' with h1 h2
      rw [← h2]
      exact framesAt_trans (framesAt_allocRec σ _ hn)
        (framesAt_mono (Nat.le_succ_of_le hn) (hrecur _ _ _ _ _ heq))
    · rename_i σ1 heq
      have hstep : FramesAt accA n0 σ σ1 :=
        framesAt_trans (framesAt_allocRec σ _ hn)
          (framesAt_mono (Nat.le_succ_of_le hn) (hrecur _ _ _ _ _ heq))
      exact framesAt_trans hstep (ih σ1 r σ2 (le_trans hn hstep.next_mono) h)

/-- `hSetdefault` respects the frame and yields the address of a table entry
present in the accumulator dict afterwards. -/
theorem hSetdefault_frames {accA n0 : Nat} (table : String)
    (es : List (String × Nat)) (σ : Store) (tA : Nat) (σ1 : Store)
    (hacc : storeGet σ accA = some (.otbl es)) (hn : n0 ≤ σ.next)
    (h : hSetdefault table accA es σ = (tA, σ1)) :
    FramesAt accA n0 σ σ1 ∧
      ∃ t, (t, tA) ∈ accStruct.tblEntriesOf (storeGet σ1 accA) := by
  unfold hSetdefault at h
  split at h
  · rename_i tA' hlt
    injection h with h1 h2
    rw [← h2]
    constructor
    · exact framesAt_refl accA n0 σ
    · refine ⟨table, ?_⟩
      rw [hacc]
      rw [← h1]
      exact lookupTbl_mem es table tA' hlt
  · rename_i hlt
    injection h with h1 h2
    rw [← h2]
    constructor
    · exact framesAt_setdefault σ table es hacc hn
    · refine ⟨table, ?_⟩
      rw [storeGet_storeSet_self]
      rw [← h1]
      simp [accStruct.tblEntriesOf]

/-- `hStoreRest` respects the frame. -/
theorem hStoreRest_frames {accA n0 : Nat} (key : List HVal) (recA tA : Nat)
    (σ1 : Store) (r : Except HErr Unit) (σ2 : Store)
    (hrec : n0 ≤ recA)
    (htA : ∃ t, (t, tA) ∈ accStruct.tblEntriesOf (storeGet σ1 accA))
    (h : hStoreRest key recA tA σ1 = some (r, σ2)) :
    FramesAt accA n0 σ1 σ2 := by
  obtain ⟨t, htA⟩ := htA
  unfold hStoreRest at h
  split at h
  · rename_i ks hks
    split at h
    · rename_i rowA hrow
      have hrowmem : rowA ∈ accStruct.rowAddrsOf (storeGet σ1 tA) := by
        rw [hks]
        exact hKeysGet_mem ks key rowA hrow
      split at h
      · injection h with h'
        injection h' with h1 h2
        rw [← h2]
        exact framesAt_writeRow σ1 rowA _ t tA htA hrowmem
      · injection h with h'
        injection h' with h1 h2
        rw [← h2]
        exact framesAt_refl accA n0 σ1
    · injection h with h'
      injection h' with h1 h2
      rw [← h2]
      exact framesAt_insertRow σ1 tA recA t key ks htA hks hrec
  · injection h with h'
    injection h' with h1 h2
    rw [← h2]
    exact framesAt_refl accA n0 σ1

/-- `hStoreStep` respects the frame. -/
theorem hStoreStep_frames {accA n0 : Nat} (table : String) (key : List HVal)
    (recA : Nat) (σ : Store) (r : Except HErr Unit) (σ2 : Store)
    (hrec : n0 ≤ recA) (hn : n0 ≤ σ.next)
    (h : hStoreStep table key recA accA σ = some (r, σ2)) :
    FramesAt accA n0 σ σ2 := by
  unfold hStoreStep at h
  split at h
  · injection h with h'
    injection h' with h1 h2
    rw [← h2]
    exact framesAt_refl accA n0 σ
  · split at h
    · rename_i es hacc
      obtain ⟨hf, htA⟩ := hSetdefault_frames table es σ
        (hSetdefault table accA es σ).1 (hSetdefault table accA es σ).2
        hacc hn rfl
      exact framesAt_trans hf (hStoreRest_frames key recA _ _ r σ2 hrec htA h)
    · injection h with h'
      injection h' with h1 h2
      rw [← h2]
      exact framesAt_refl accA n0 σ

/-- Every result of the `brands` block respects the frame. -/
theorem hBrandsBlock_frames {accA n0 : Nat}
    (recur : String → HVal → Store → HRes Unit)
    (hrecur : ∀ t v σa r σb, recur t v σa = some (r, σb) →
      FramesAt accA σa.next σa σb)
    (recA : Nat) (es1 : HDict) (c0 : HVal) (σ : Store)
    (r : Except HErr HVal) (σ2 : Store)
    (hrecA : n0 ≤ recA) (hn : n0 ≤ σ.next)
    (h : hBrandsBlock recur recA es1 c0 σ = some (r, σ2)) :
    FramesAt accA n0 σ σ2 := by
  unfold hBrandsBlock at h
  split at h
  · injection h with h'
    injection h' with h1 h2
    rw [← h2]
    exact framesAt_refl accA n0 σ
  · simp only [] at h
    have hw : FramesAt accA n0 σ (writeRec σ recA (hdRemove es1 "brands")) :=
      framesAt_writeRec σ recA _ hrecA
    split at h
    · injection h with h'
      injection h' with h1 h2
      rw [← h2]
      exact hw
    · exact framesAt_trans hw
        (hBrandsLoop_frames recur hrecur recA _ c0 _ r σ2
          (le_trans hn hw.next_mono) h)

/-- Every result of the trademark block respects the frame. -/
theorem hTmBlock_frames {accA n0 : Nat} (recA : Nat) (es2 : HDict) (σ : Store)
    (r : Except HErr Unit) (σ2 : Store) (hrecA : n0 ≤ recA)
    (h : hTmBlock recA es2 σ = some (r, σ2)) :
    FramesAt accA n0 σ σ2 := by
  unfold hTmBlock at h
  split at h
  · split at h
    · split at h
      · simp only [] at h
        injection h with h'
        injection h' with h1 h2
        rw [← h2]
        exact framesAt_writeRec σ recA _ hrecA
      · injection h with h'
        injection h' with h1 h2
        rw [← h2]
        exact framesAt_refl accA n0 σ
    · injection h with h'
      injection h' with h1 h2
      rw [← h2]
      exact framesAt_refl accA n0 σ
  · injection h with h'
    injection h' with h1 h2
    rw [← h2]
    exact framesAt_refl accA n0 σ

/-- The single-`category` rewrite respects the frame. -/
theorem hCatSingularStore_frames {accA n0 : Nat} (table : String)
    (recA : Nat) (es3 : HDict) (σ : Store) (hrecA : n0 ≤ recA) :
    FramesAt accA n0 σ (hCatSingularStore table recA es3 σ) := by
  unfold hCatSingularStore
  split
  · split
    · exact framesAt_writeRec σ recA _ hrecA
    · exact framesAt_refl accA n0 σ
  · exact framesAt_refl accA n0 σ

/-- Every result of the `categories` block respects the frame. -/
theorem hCategoriesBlock_frames {accA n0 : Nat}
    (recur : String → HVal → Store → HRes Unit)
    (hrecur : ∀ t v σa r σb, recur t v σa = some (r, σb) →
      FramesAt accA σa.next σa σb)
    (company brand : HVal) (recA : Nat) (es4 : HDict) (σ : Store)
    (r : Except HErr Unit) (σ2 : Store)
    (hrecA : n0 ≤ recA) (hn : n0 ≤ σ.next)
    (h : hCategoriesBlock recur company brand recA es4 σ = some (r, σ2)) :
    FramesAt accA n0 σ σ2 := by
  unfold hCategoriesBlock at h
  split at h
  · injection h with h'
    injection h' with h1 h2
    rw [← h2]
    exact framesAt_refl accA n0 σ
  · simp only [] at h
    have hw : FramesAt accA n0 σ (writeRec σ recA (hdRemove es4 "categories")) :=
      framesAt_writeRec σ recA _ hrecA
    split at h
    · injection h with h'
      injection h' with h1 h2
      rw [← h2]
      exact hw
    · exact framesAt_trans hw
        (hCategoriesLoop_frames recur hrecur company brand _ _ _ r σ2
          (le_trans hn hw.next_mono) h)

/-- The `min_score` default respects the frame. -/
theorem hScoreStore_frames {accA n0 : Nat} (recA : Nat) (es5 : HDict)
    (σ : Store) (hrecA : n0 ≤ recA) :
    FramesAt accA n0 σ (hScoreStore recA es5 σ) := by
  unfold hScoreStore
  split
  · exact framesAt_writeRec σ recA _ hrecA
  · exact framesAt_refl accA n0 σ

/-- Every result of the automatic `brand` entry respects the frame. -/
theorem hAutoBrandBlock_frames {accA n0 : Nat}
    (recur : String → HVal → Store → HRes Unit)
    (hrecur : ∀ t v σa r σb, recur t v σa = some (r, σb) →
      FramesAt accA σa.next σa σb)
    (table : String) (company brand : HVal) (es6 : HDict) (σ : Store)
    (r : Except HErr Unit) (σ2 : Store) (hn : n0 ≤ σ.next)
    (h : hAutoBrandBlock recur table company brand es6 σ = some (r, σ2)) :
    FramesAt accA n0 σ σ2 := by
  unfold hAutoBrandBlock at h
  split at h
  · simp only [] at h
    exact framesAt_trans (framesAt_allocRec σ _ hn)
      (framesAt_mono (Nat.le_succ_of_le hn) (hrecur _ _ _ _ _ h))
  · injection h with h'
    injection h' with h1 h2
    rw [← h2]
    exact framesAt_refl accA n0 σ

/-- Every result of the automatic `company` entry respects the frame. -/
theorem hAutoCompanyBlock_frames {accA n0 : Nat}
    (recur : String → HVal → Store → HRes Unit)
    (hrecur : ∀ t v σa r σb, recur t v σa = some (r, σb) →
      FramesAt accA σa.next σa σb)
    (table : String) (company : HVal) (es7 : HDict) (σ : Store)
    (r : Except HErr Unit) (σ2 : Store) (hn : n0 ≤ σ.next)
    (h : hAutoCompanyBlock recur table company es7 σ = some (r, σ2)) :
    FramesAt accA n0 σ σ2 := by
  unfold hAutoCompanyBlock at h
  split at h
  · simp only [] at h
    exact framesAt_trans (framesAt_allocRec σ _ hn)
      (framesAt_mono (Nat.le_succ_of_le hn) (hrecur _ _ _ _ _ h))
  · injection h with h'
    injection h' with h1 h2
    rw [← h2]
    exact framesAt_refl accA n0 σ

set_option maxHeartbeats 2000000 in
theorem addStore_frames :
    ∀ (n : Nat) (table : String) (rv : HVal) (accA : Nat) (σ : Store)
      (r : Except HErr Unit) (σ2 : Store),
      addStore n table rv accA σ = some (r, σ2) →
      FramesAt accA σ.next σ σ2 := by
  intro n
  induction n with
  | zero =>
    intro table rv accA σ r σ2 h
    exact Option.noConfusion h
  | succ n ih =>
    intro table rv accA σ r σ2 h
    have hrecur : ∀ t v (σa : Store) rr σb,
        (fun t v σ' => addStore n t v accA σ') t v σa = some (rr, σb) →
        FramesAt accA σa.next σa σb :=
      fun t v σa rr σb hh => ih t v accA σa rr σb hh
    unfold addStore at h
    split at h
    · -- rv = .ref rA
      rename_i rA
      split at h
      · -- storeGet = some (.odict es0)
        rename_i es0 hrA
        simp only [] at h
        have hrecA : σ.next ≤ (allocS σ (.odict es0)).1 := le_of_eq rfl
        have hF1 : FramesAt accA σ.next σ (allocS σ (.odict es0)).2 :=
          framesAt_allocRec σ es0 (le_refl _)
        split at h
        · injection h with h'
          injection h' with h1 h2
          rw [← h2]
          exact hF1
        · split at h
          · exact Option.noConfusion h
          · rename_i heq1
            injection h with h'
            injection h' with h1 h2
            rw [← h2]
            exact framesAt_trans hF1
              (hNestedCompany_frames _ hrecur _ _ _ _ hrecA hF1.next_mono heq1)
          · rename_i heq1
            have hF2 := framesAt_trans hF1
              (hNestedCompany_frames _ hrecur _ _ _ _ hrecA hF1.next_mono heq1)
            split at h
            · exact Option.noConfusion h
            · rename_i heq2
              injection h with h'
              injection h' with h1 h2
              rw [← h2]
              exact framesAt_trans hF2
                (hNestedBrand_frames _ hrecur _ _ _ _ hrecA hF2.next_mono heq2)
            · rename_i heq2
              have hF3 := framesAt_trans hF2
                (hNestedBrand_frames _ hrecur _ _ _ _ hrecA hF2.next_mono heq2)
              split at h
              · injection h with h'
                injection h' with h1 h2
                rw [← h2]
                exact hF3
              · split at h
                · exact Option.noConfusion h
                · rename_i heq3
                  injection h with h'
                  injection h' with h1 h2
                  rw [← h2]
                  exact framesAt_trans hF3
                    (hBrandsBlock_frames _ hrecur _ _ _ _ _ _ hrecA
                      hF3.next_mono heq3)
                · rename_i heq3
                  have hF4 := framesAt_trans hF3
                    (hBrandsBlock_frames _ hrecur _ _ _ _ _ _ hrecA
                      hF3.next_mono heq3)
                  split at h
                  · injection h with h'
                    injection h' with h1 h2
                    rw [← h2]
                    exact hF4
                  · split at h
                    · exact Option.noConfusion h
                    · rename_i heq4
                      injection h with h'
                      injection h' with h1 h2
                      rw [← h2]
                      exact framesAt_trans hF4
                        (hTmBlock_frames _ _ _ _ _ hrecA heq4)
                    · rename_i heq4
                      have hF5 := framesAt_trans hF4
                        (hTmBlock_frames _ _ _ _ _ hrecA heq4)
                      split at h
                      · injection h with h'
                        injection h' with h1 h2
                        rw [← h2]
                        exact hF5
                      · rename_i es3 heq5a
                        have hF6 := framesAt_trans hF5
                          (hCatSingularStore_frames table _ es3 _ hrecA)
                        split at h
                        · injection h with h'
                          injection h' with h1 h2
                          rw [← h2]
                          exact hF6
                        · split at h
                          · exact Option.noConfusion h
                          · rename_i heq6
                            injection h with h'
                            injection h' with h1 h2
                            rw [← h2]
                            exact framesAt_trans hF6
                              (hCategoriesBlock_frames _ hrecur _ _ _ _ _ _ _
                                hrecA hF6.next_mono heq6)
                          · rename_i heq6
                            have hF7 := framesAt_trans hF6
                              (hCategoriesBlock_frames _ hrecur _ _ _ _ _ _ _
                                hrecA hF6.next_mono heq6)
                            split at h
                            · injection h with h'
                              injection h' with h1 h2
                              rw [← h2]
                              exact hF7
                            · rename_i es5 heq7a
                              have hF8 := framesAt_trans hF7
                                (hScoreStore_frames _ es5 _ hrecA)
                              split at h
                              · injection h with h'
                                injection h' with h1 h2
                                rw [← h2]
                                exact hF8
                              · split at h
                                · exact Option.noConfusion h
                                · rename_i heq8
                                  injection h with h'
                                  injection h' with h1 h2
                                  rw [← h2]
                                  exact framesAt_trans hF8
                                    (hAutoBrandBlock_frames _ hrecur _ _ _ _ _
                                      _ _ hF8.next_mono heq8)
                                · rename_i heq8
                                  have hF9 := framesAt_trans hF8
                                    (hAutoBrandBlock_frames _ hrecur _ _ _ _ _
                                      _ _ hF8.next_mono heq8)
                                  split at h
                                  · injection h with h'
                                    injection h' with h1 h2
                                    rw [← h2]
                                    exact hF9
                                  · split at h
                                    · exact Option.noConfusion h
                                    · rename_i heq9
                                      injection h with h'
                                      injection h' with h1 h2
                                      rw [← h2]
                                      exact framesAt_trans hF9
                                        (hAutoCompanyBlock_frames _ hrecur _ _
                                          _ _ _ _ hF9.next_mono heq9)
                                    · rename_i heq9
                                      have hF10 := framesAt_trans hF9
                                        (hAutoCompanyBlock_frames _ hrecur _ _
                                          _ _ _ _ hF9.next_mono heq9)
                                      split at h
                                      · injection h with h'
                                        injection h' with h1 h2
                                        rw [← h2]
                                        exact hF10
                                      · split at h
                                        · injection h with h'
                                          injection h' with h1 h2
                                          rw [← h2]
                                          exact hF10
                                        · rename_i es8 heq10a
                                          have hF11 := framesAt_trans hF10
                                            (framesAt_writeRec _ _
                                              (hCleanEntries es8) hrecA)
                                          split at h
                                          · injection h with h'
                                            injection h' with h1 h2
                                            rw [← h2]
                                            exact hF11
                                          · split at h
                                            · injection h with h'
                                              injection h' with h1 h2
                                              rw [← h2]
                                              exact hF11
                                            · split at h
                                              · injection h with h'
                                                injection h' with h1 h2
                                                rw [← h2]
                                                exact hF11
                                              · rename_i es10 heq12a
                                                have hF12 := framesAt_trans
                                                  hF11
                                                  (framesAt_writeRec _ _ es10
                                                    hrecA)
                                                exact framesAt_trans hF12
                                                  (hStoreStep_frames table _ _
                                                    _ r σ2 hrecA hF12.next_mono
                                                    h)
      · -- storeGet other
        injection h with h'
        injection h' with h1 h2
        rw [← h2]
        exact framesAt_refl accA σ.next σ
    · -- rv not a ref
      injection h with h'
      injection h' with h1 h2
      rw [← h2]
      exact framesAt_refl accA σ.next σ

/-! ## Claim theorems -/

/-- Claim C1 (code bug): at the spec's own example — incoming
`{a: "y", b: "z"}` merged into existing `{a: "", b: "x"}` — `merge` yields
`{a: "y", b: "z"}`: the later non-blank `"z"` *overwrites* the existing
non-blank `"x"`, contradicting the claimed first-writer-wins behaviour (and
`merge`'s own docstring "Only overwrite blank values"). -/
theorem merge_overwrites_nonblank_at_example :
    merge [("a", .str "y"), ("b", .str "z")] [("a", .str ""), ("b", .str "x")] =
      [("a", PyVal.str "y"), ("b", PyVal.str "z")] ∧
    merge [("a", .str "y"), ("b", .str "z")] [("a", .str ""), ("b", .str "x")] ≠
      [("a", PyVal.str "y"), ("b", PyVal.str "x")] := by
  refine ⟨rfl, ?_⟩
  intro h
  have h2 : (some (PyVal.str "z") : Option PyVal) = some (PyVal.str "x") :=
    calc (some (PyVal.str "z") : Option PyVal)
        = dictGet (merge [("a", .str "y"), ("b", .str "z")]
            [("a", .str ""), ("b", .str "x")]) "b" := rfl
      _ = dictGet [("a", PyVal.str "y"), ("b", PyVal.str "x")] "b" := by rw [h]
      _ = some (PyVal.str "x") := rfl
  injection h2 with h3
  injection h3 with h4
  exact absurd h4 (by decide)

/-- Claim C2 (counterexample): expanding the record `{company: "Acme"}` for
table `claim` into an empty accumulator raises (the `claim` key field is
empty), yet the accumulator is *not* left as it was: the recursively
expanded `company` existence row is already committed. -/
theorem expand_failure_mutates_accumulator_cx :
    (add_record 10 "claim" (.dict [("company", .str "Acme")]) []).map Prod.snd =
      some [("company", [([PyVal.str "Acme"], [("company", PyVal.str "Acme")])])] ∧
    [("company", [([PyVal.str "Acme"], [("company", PyVal.str "Acme")])])] ≠
      ([] : Acc) := by
  exact ⟨rfl, by simp⟩

/-- Claim C2 (amended): a validation failure aborts the record's own write —
the raised error carries the record with its key defaults applied and no
`claim`-table row exists — but recursive expansions already performed (here
the auto `company` row) stay committed in the accumulator. -/
theorem expand_failure_keeps_prior_recursive_writes :
    add_record 10 "claim" (.dict [("company", .str "Acme")]) [] =
      some (.error (.emptyKey "claim" "claim"
          [("company", PyVal.str "Acme"), ("brand", PyVal.str ""),
           ("scope", PyVal.str "")]),
        [("company", [([PyVal.str "Acme"], [("company", PyVal.str "Acme")])])]) :=
  rfl

/-- Claim C3 (counterexample): expanding `{company: "Acme"}` for table
`rating` succeeds even though the key fields `brand` and `scope` are missing
— `brand` is silently defaulted to `""` because the table is not `brand`,
contradicting the claim that `scope` is the sole exception. -/
theorem empty_brand_key_succeeds_cx :
    add_record 10 "rating" (.dict [("company", .str "Acme")]) [] =
      some (.ok (),
        [("company", [([PyVal.str "Acme"], [("company", PyVal.str "Acme")])]),
         ("rating", [([PyVal.str "Acme", PyVal.str "", PyVal.str ""],
           [("company", PyVal.str "Acme"), ("brand", PyVal.str ""),
            ("scope", PyVal.str "")])])]) :=
  rfl

/-- Claim C3 (amended): at finalization a key field whose value is missing,
`None` or empty fails with a validation error naming the field, the table
and the record, *except* `scope` — and except `brand` when the target table
is not `brand` — which succeed by defaulting to the empty string: the key
check succeeds iff every empty key field is one of those exempt fields, the
empty exempt fields end up bound to `""`, and a failure reports a
non-exempt empty field. -/
theorem fillKeys_spec (table : String) :
    ∀ (ks : List String) (record : Dict),
      ((∃ r', fillKeys table ks record = .ok r') ↔
        ∀ k ∈ ks, emptyKeyVal record k = true → exemptKey table k = true) ∧
      (∀ r', fillKeys table ks record = .ok r' →
        ∀ k ∈ ks, emptyKeyVal record k = true → dictGet r' k = some (.str "")) ∧
      (∀ e, fillKeys table ks record = .error e →
        ∃ k, k ∈ ks ∧ emptyKeyVal record k = true ∧ exemptKey table k = false ∧
          ∃ rec2, e = .emptyKey k table rec2) := by
  intro ks
  induction ks with
  | nil =>
    intro record
    refine ⟨?_, ?_, ?_⟩
    · constructor
      · intro _ k hk
        simp at hk
      · intro _
        exact ⟨record, rfl⟩
    · intro r' _ k hk
      simp at hk
    · intro e he
      exact Except.noConfusion he
  | cons k0 rest ih =>
    intro record
    by_cases he : emptyKeyVal record k0 = true
    · by_cases hx : exemptKey table k0 = true
      · have hunfold : fillKeys table (k0 :: rest) record =
            fillKeys table rest (dictSet record k0 (.str "")) := by
          simp [fillKeys, he, hx]
        have hsame := emptyKeyVal_dictSet_empty record k0 he
        obtain ⟨ih1, ih2, ih3⟩ := ih (dictSet record k0 (.str ""))
        refine ⟨?_, ?_, ?_⟩
        · rw [hunfold]
          constructor
          · intro hok k hk hke
            rcases List.mem_cons.mp hk with rfl | hk
            · exact hx
            · exact ih1.mp hok k hk (by rw [hsame k]; exact hke)
          · intro hall
            apply ih1.mpr
            intro k hk hke
            exact hall k (List.mem_cons_of_mem _ hk) (by rw [← hsame k]; exact hke)
        · intro r' hok k hk hke
          rw [hunfold] at hok
          rcases List.mem_cons.mp hk with rfl | hk
          · rcases fillKeys_get_preserve table rest _ r' hok k with h1 | h1
            · rw [h1, dictGet_dictSet_self]
            · exact h1
          · exact ih2 r' hok k hk (by rw [hsame k]; exact hke)
        · intro e herr
          rw [hunfold] at herr
          obtain ⟨k, hk, hke, hkx, rec2, hrec⟩ := ih3 e herr
          exact ⟨k, List.mem_cons_of_mem _ hk, by rw [← hsame k]; exact hke,
            hkx, rec2, hrec⟩
      · have hunfold : fillKeys table (k0 :: rest) record =
            .error (.emptyKey k0 table record) := by
          simp [fillKeys, he, hx]
        refine ⟨?_, ?_, ?_⟩
        · constructor
          · intro hok
            obtain ⟨r', hr'⟩ := hok
            rw [hunfold] at hr'
            exact Except.noConfusion hr'
          · intro hall
            exact absurd (hall k0 (List.mem_cons_self _ _) he) hx
        · intro r' hr'
          rw [hunfold] at hr'
          exact Except.noConfusion hr'
        · intro e herr
          rw [hunfold] at herr
          refine ⟨k0, List.mem_cons_self _ _, he, by simpa using hx, record, ?_⟩
          injection herr with h
          exact h.symm
    · have hunfold : fillKeys table (k0 :: rest) record =
          fillKeys table rest record := by
        simp [fillKeys, he]
      obtain ⟨ih1, ih2, ih3⟩ := ih record
      refine ⟨?_, ?_, ?_⟩
      · rw [hunfold]
        constructor
        · intro hok k hk hke
          rcases List.mem_cons.mp hk with rfl | hk
          · exact absurd hke he
          · exact ih1.mp hok k hk hke
        · intro hall
          exact ih1.mpr fun k hk hke => hall k (List.mem_cons_of_mem _ hk) hke
      · intro r' hok k hk hke
        rw [hunfold] at hok
        rcases List.mem_cons.mp hk with rfl | hk
        · exact absurd hke he
        · exact ih2 r' hok k hk hke
      · intro e herr
        rw [hunfold] at herr
        obtain ⟨k, hk, h1, h2, rec2, h3⟩ := ih3 e herr
        exact ⟨k, List.mem_cons_of_mem _ hk, h1, h2, rec2, h3⟩

/-- Witness for `fillKeys_spec`: on table `rating` with record
`{company: "Acme"}`, the empty `brand` key field is defaulted to `""`. -/
theorem fillKeys_spec_witness :
    dictGet [("company", PyVal.str "Acme"), ("brand", PyVal.str ""),
      ("scope", PyVal.str "")] "brand" = some (PyVal.str "") :=
  (fillKeys_spec "rating" ["company", "brand", "scope"]
      [("company", PyVal.str "Acme")]).2.1
    [("company", PyVal.str "Acme"), ("brand", PyVal.str ""),
      ("scope", PyVal.str "")]
    rfl "brand" (by simp) rfl

/-- Claim C4 (counterexample): for table `rating`, the record
`{company: "Acme", brand: {brand: "Widget"}}` fails to expand — the nested
brand mapping has no `company`, and instead of inheriting `"Acme"` from the
current record the code recursively expands the bare mapping, whose empty
`company` key raises — so nothing at all is committed. -/
theorem nested_brand_without_company_fails_cx :
    add_record 10 "rating"
        (.dict [("company", .str "Acme"),
                ("brand", .dict [("brand", .str "Widget")])]) [] =
      some (.error (.emptyKey "company" "brand" [("brand", PyVal.str "Widget")]),
        []) :=
  rfl

/-- Claim C4 (amended): a mapping-valued `brand` is recursively expanded as a
`brand` record and the current record's `company` is *replaced* by the nested
mapping's `company` (here `"Other"` becomes `"Acme"`); when the nested
mapping carries no `company` at all, its own expansion fails on the empty
`company` key and the whole record is aborted — the parent's `company` is
never inherited. -/
theorem nested_brand_company_amended :
    add_record 12 "rating"
        (.dict [("company", .str "Other"),
                ("brand", .dict [("company", .str "Acme"),
                                 ("brand", .str "Widget")])]) [] =
      some (.ok (),
        [("company", [([PyVal.str "Acme"], [("company", PyVal.str "Acme")])]),
         ("brand", [([PyVal.str "Acme", PyVal.str "Widget"],
           [("company", PyVal.str "Acme"), ("brand", PyVal.str "Widget")])]),
         ("rating", [([PyVal.str "Acme", PyVal.str "Widget", PyVal.str ""],
           [("company", PyVal.str "Acme"), ("brand", PyVal.str "Widget"),
            ("scope", PyVal.str "")])])]) ∧
    add_record 12 "claim"
        (.dict [("company", .str "Other"),
                ("brand", .dict [("brand", .str "W2")])]) [] =
      some (.error (.emptyKey "company" "brand" [("brand", PyVal.str "W2")]), []) :=
  ⟨rfl, rfl⟩

/-- Claim C5 (counterexample): expanding
`{company: "Acme", category: "Food", parent_category: "Snacks"}` for table
`category` emits *no* `category` existence record for the parent category
`"Snacks"`: `parent_category` receives no special handling at all and rides
along as an ordinary field of the one `category` row. -/
theorem parent_category_not_expanded_cx :
    add_record 10 "category"
        (.dict [("company", .str "Acme"), ("category", .str "Food"),
                ("parent_category", .str "Snacks")]) [] =
      some (.ok (),
        [("company", [([PyVal.str "Acme"], [("company", PyVal.str "Acme")])]),
         ("category", [([PyVal.str "Acme", PyVal.str "", PyVal.str "Food"],
           [("company", PyVal.str "Acme"), ("category", PyVal.str "Food"),
            ("parent_category", PyVal.str "Snacks"), ("brand", PyVal.str "")])])]) :=
  rfl

/-- Claim C5 (amended): a `category` field is fanned out into a bare
`category` existence record only when the target table neither is
`category` nor ends in `category`: a `rating` record with a category gets the
existence row, while a `subcategory` record (whose name ends in `category`)
keeps its `category` field with no extra row; `parent_category` is never
expanded. -/
theorem category_fanout_amended :
    add_record 10 "rating"
        (.dict [("company", .str "Acme"), ("category", .str "Food")]) [] =
      some (.ok (),
        [("company", [([PyVal.str "Acme"], [("company", PyVal.str "Acme")])]),
         ("category", [([PyVal.str "Acme", PyVal.str "", PyVal.str "Food"],
           [("company", PyVal.str "Acme"), ("category", PyVal.str "Food"),
            ("brand", PyVal.str "")])]),
         ("rating", [([PyVal.str "Acme", PyVal.str "", PyVal.str ""],
           [("company", PyVal.str "Acme"), ("brand", PyVal.str ""),
            ("scope", PyVal.str "")])])]) ∧
    add_record 10 "subcategory"
        (.dict [("category", .str "Food"), ("subcategory", .str "Chips")]) [] =
      some (.ok (),
        [("subcategory", [([PyVal.str "Food", PyVal.str "Chips"],
           [("category", PyVal.str "Food"), ("subcategory", PyVal.str "Chips")])])]) :=
  ⟨rfl, rfl⟩

/-- Claim C6: `claim_to_judgment` tries the MIXED pattern, then BAD, then
GOOD, first match winning, and returns the caller's default (1 when omitted)
when none matches — it is a total function and never raises; in particular
the hedged text is MIXED, the no-information text is BAD, and the
"distinguished" text is GOOD. -/
theorem claim_to_judgment_spec :
    (∀ (s : String) (d : Int), mixedMatch s = true → claim_to_judgment s d = 0) ∧
    (∀ (s : String) (d : Int), mixedMatch s = false → badMatch s = true →
      claim_to_judgment s d = -1) ∧
    (∀ (s : String) (d : Int), mixedMatch s = false → badMatch s = false →
      goodMatch s = true → claim_to_judgment s d = 1) ∧
    (∀ (s : String) (d : Int), mixedMatch s = false → badMatch s = false →
      goodMatch s = false → claim_to_judgment s d = d) ∧
    claim_to_judgment "Good record, but limited public information" = 0 ∧
    claim_to_judgment "No public information available" = -1 ∧
    claim_to_judgment "Company X is distinguished for its transparency" = 1 := by
  refine ⟨?_, ?_, ?_, ?_, rfl, rfl, rfl⟩
  · intro s d h
    simp [claim_to_judgment, h]
  · intro s d h1 h2
    simp [claim_to_judgment, h1, h2]
  · intro s d h1 h2 h3
    simp [claim_to_judgment, h1, h2, h3]
  · intro s d h1 h2 h3
    simp [claim_to_judgment, h1, h2, h3]

/-- Witness for `claim_to_judgment_spec`: the word `but` alone forces MIXED
regardless of the default. -/
theorem claim_to_judgment_spec_witness : claim_to_judgment "but" 7 = 0 :=
  claim_to_judgment_spec.1 "but" 7 rfl

/-- Claim C7: the trademark-stripping loop truncates a brand at the earliest
occurrence of any glyph of `TM_SYMBOLS` and records exactly that glyph
(untouched when no glyph occurs); the full expansion of
`{company: "Acme", brand: "Acme®"}` stores brand `"Acme"` with `tm` `"®"`,
under the glyph-free key `("Acme", "Acme")`. -/
theorem tm_stripping_spec :
    (∀ s : List Char, firstIdx (fun c => tmSymbols.contains c) s = none →
      tmFold tmSymbols (s, none) = (s, none)) ∧
    (∀ (s : List Char) (i : Nat),
      firstIdx (fun c => tmSymbols.contains c) s = some i →
      tmFold tmSymbols (s, none) = (s.take i, s.get? i)) ∧
    add_record 10 "brand"
        (.dict [("company", .str "Acme"), ("brand", .str "Acme®")]) [] =
      some (.ok (),
        [("company", [([PyVal.str "Acme"], [("company", PyVal.str "Acme")])]),
         ("brand", [([PyVal.str "Acme", PyVal.str "Acme"],
           [("company", PyVal.str "Acme"), ("brand", PyVal.str "Acme"),
            ("tm", PyVal.str "®")])])]) := by
  refine ⟨?_, ?_, rfl⟩
  · intro s h
    rw [tmFold_spec tmSymbols s none, h]
  · intro s i h
    rw [tmFold_spec tmSymbols s none, h]

/-- Witness for `tm_stripping_spec`: `"Acme®"` is truncated at index 4. -/
theorem tm_stripping_spec_witness :
    tmFold tmSymbols ("Acme®".toList, none) =
      ("Acme®".toList.take 4, "Acme®".toList.get? 4) :=
  tm_stripping_spec.2.1 "Acme®".toList 4 rfl

/-- Claim C8: `grade_to_judgment` compares the first character of the grade,
uppercased, against `'C'` in code-point order — 1 below `'C'`, 0 at `'C'`,
-1 above — and in particular maps `"B+"` to 1, `"C"` to 0 and `"D-"` to -1. -/
theorem grade_to_judgment_spec :
    (∀ (g : String) (c : Char) (rest : List Char), g.toList = c :: rest →
      grade_to_judgment g =
        .ok (if c.toUpper < 'C' then 1 else if c.toUpper = 'C' then 0 else -1)) ∧
    grade_to_judgment "B+" = .ok 1 ∧
    grade_to_judgment "C" = .ok 0 ∧
    grade_to_judgment "D-" = .ok (-1) := by
  refine ⟨?_, rfl, rfl, rfl⟩
  intro g c rest h
  unfold grade_to_judgment
  rw [h]
  unfold pyCmp
  rcases lt_trichotomy c.toUpper 'C' with h1 | h1 | h1
  · simp [h1, not_lt.mpr (le_of_lt h1), ne_of_lt h1]
  · simp [h1]
  · simp [not_lt.mpr (le_of_lt h1), h1, ne_of_gt h1]

/-- Witness for `grade_to_judgment_spec`: applied to `"B+"`. -/
theorem grade_to_judgment_spec_witness :
    grade_to_judgment "B+" =
      .ok (if 'B'.toUpper < 'C' then 1 else if 'B'.toUpper = 'C' then 0 else -1) :=
  grade_to_judgment_spec.1 "B+" 'B' ['+'] rfl

/-- Claim C9: expanding the `brand` record `{company: "Acme", brand: "Widget"}`
into an empty accumulator produces exactly two canonical rows and nothing
else: a `company` row keyed `("Acme",)` and a `brand` row keyed
`("Acme", "Widget")`. -/
theorem brand_roundtrip_two_rows :
    add_record 10 "brand"
        (.dict [("company", .str "Acme"), ("brand", .str "Widget")]) [] =
      some (.ok (),
        [("company", [([PyVal.str "Acme"], [("company", PyVal.str "Acme")])]),
         ("brand", [([PyVal.str "Acme", PyVal.str "Widget"],
           [("company", PyVal.str "Acme"), ("brand", PyVal.str "Widget")])])]) :=
  rfl

/-- A caller store for exercising the frame property: the record object at
address 0 (with a nested brand mapping at address 1 and a categories list
holding a reference to address 3), and the accumulator dict at address 2. -/
def c10Store : Store :=
  { mem := [(0, .odict [("company", .str "Acme"), ("brand", .ref 1),
              ("categories", .list [.str "toys", .ref 3]),
              ("url", .str "http://example.com/x")]),
            (1, .odict [("company", .str "BrandCo"), ("brand", .str "Widget")]),
            (2, .otbl []),
            (3, .odict [("category", .str "games")])],
    next := 4 }

/-- The outcome of expanding the record at address 0 of `c10Store` for table
`rating` into the accumulator at address 2. -/
def c10Run : Except HErr Unit × Store :=
  (addStore 20 "rating" (.ref 0) 2 c10Store).getD (.ok (), c10Store)

/-- Claim C10: for every completed `add_record` call on the store model,
every address reachable from the caller's record value — the record mapping
itself and any nested company/brand mappings or brands/categories list
elements inside it — that names an object existing before the call and is
not itself part of the accumulator structure holds exactly the same object
after the call as before, whether expansion succeeded or failed: all field
rewrites, pops, cleaning and defaulting performed by `_add` touch only its
own fresh copies and the accumulator. -/
theorem addStore_preserves_caller_record
    (n : Nat) (table : String) (rv : HVal) (accA : Nat) (σ : Store)
    (r : Except HErr Unit) (σ2 : Store)
    (h : addStore n table rv accA σ = some (r, σ2))
    (a : Nat) (ha : a ∈ reachAddrs σ rv) (halt : a < σ.next)
    (hacc : a ∉ accStruct σ accA) :
    storeGet σ2 a = storeGet σ a := by
  by_contra hch
  exact hacc ((addStore_frames n table rv accA σ r σ2 h).writes a halt hch)

/-- The frame theorem at a concrete run: expanding the record of `c10Store`
(which succeeds) leaves the caller's nested brand mapping at address 1
untouched. -/
theorem addStore_preserves_caller_record_witness :
    storeGet c10Run.2 1 = storeGet c10Store 1 :=
  addStore_preserves_caller_record 20 "rating" (.ref 0) 2 c10Store
    c10Run.1 c10Run.2 rfl 1 (by decide) (by decide) (by decide)

end Srs
